import Mathlib

/-!
# Verification of `Part-I/virtmem.c`

A shallow embedding of the virtual-memory simulator (TLB, page table, frame
allocator with a FIFO / recency eviction queue) and proofs about it.

Modelling conventions.

* Global program state is an explicit record `State`; one iteration of the
  `while` loop of `main` is `translate`, which returns the new state and the
  three loop-local results (`physical_page`, `physical_address`, `value`).
* The doubly linked `Queue` is represented by the list of its keys read from
  `front` to `rear` together with the `size` and `capacity` fields, which are
  kept as stored numbers: `front` is the head of the list, `rear` its last
  element, and `rear == NULL` holds exactly for the empty list.
* `int` values are `Int`, or `Nat` where the program only ever counts upwards
  from zero: such a `Nat` is the number of increments made, and the 32-bit
  variable holds `int32` of it, which is the same number below `2 ^ 31`. The
  section on the counters at the width of `int` carries `tlbindex` and the
  statistics counters at that width. `unsigned char` values are `Nat` reduced
  `% 256` where they are assigned.
* `none` stands for undefined behaviour: the value of a function that returned
  without one is used, or a null pointer is dereferenced.
-/

namespace Virtmem

/-! ## Constants -/

def TLB_SIZE : Nat := 16
def PAGE_MASK : Int := 255
def PAGE_SIZE : Nat := 256
def OFFSET_BITS : Nat := 8
def OFFSET_MASK : Int := 255
def FRAMES : Nat := 64
/-- The `struct tlbentry`: two `unsigned char` fields. -/
structure tlbentry where
  logical : Nat
  physical : Nat

/-- The `struct Queue`: the `size` and `capacity` fields and the linked nodes,
as the list of their keys from `front` to `rear`. -/
structure Queue where
  size : Int
  capacity : Int
  keys : List Nat

/-- The globals of the program, the heap queue and the counters of `main`. -/
structure State where
  tlb : Nat → tlbentry
  tlbindex : Nat
  pagetable : Nat → Nat → Int
  main_memory : Int → Int
  queue : Queue
  next_frame : Nat
  total_addresses : Nat
  tlb_hits : Nat
  page_faults : Nat

/-- The loop-local results of one iteration of `main`. -/
structure Resolution where
  logical_page : Nat
  offset : Int
  physical_page : Int
  physical_address : Int
  value : Int

/-! ## Queue operations -/

def createQueue (capacity : Int) : Queue :=
  { size := 0, capacity := capacity, keys := [] }

def isFull (queue : Queue) : Bool := queue.size == queue.capacity

/-- The test `queue->rear == NULL`. -/
def isEmpty (queue : Queue) : Bool := queue.keys.isEmpty

/-- The node walk of `isIncluded`, from a given node to the end. -/
def isIncludedFrom : List Nat → Nat → Bool
  | [], _ => false
  | k :: rest, key => if k = key then true else isIncludedFrom rest key

def isIncluded (queue : Queue) (key : Nat) : Bool := isIncludedFrom queue.keys key

/-- The function `dequeue`: the returned key (`none` for the `return;` taken on
an empty queue) and the queue afterwards. -/
def dequeue (queue : Queue) : Option Nat × Queue :=
  if isEmpty queue then (none, queue)
  else
    (queue.keys.getLast?, { queue with keys := queue.keys.dropLast, size := queue.size - 1 })

def enqueue (queue : Queue) (key : Nat) : Queue :=
  if isFull queue then queue
  else { queue with keys := key :: queue.keys, size := queue.size + 1 }

/-- The `while` loop of the last branch of `referencePage`. `before` holds the
keys of the nodes in front of `temp`, the last argument those from `temp` on,
`rearKey` is `queue->rear->key`. Reaching the end of the nodes would read
`temp->key` through a null pointer. -/
def referenceLoop (queue : Queue) (logical_page rearKey : Nat) :
    List Nat → List Nat → Option Queue
  | _, [] => none
  | before, k :: after =>
    if k = rearKey then some queue
    else if k = logical_page then
      some (enqueue { queue with keys := before ++ after, size := queue.size - 1 } logical_page)
    else referenceLoop queue logical_page rearKey (before ++ [k]) after

/-- The function `referencePage`. The two `none` results stand for reading
`queue->front->key` or `queue->rear->key` through a null pointer. -/
def referencePage (queue : Queue) (logical_page : Nat) : Option Queue :=
  if isIncluded queue logical_page then
    match queue.keys with
    | [] => none
    | frontKey :: rest =>
      match queue.keys.getLast? with
      | none => none
      | some rearKey =>
        if frontKey = logical_page then some queue
        else if rearKey = logical_page then some (enqueue (dequeue queue).2 logical_page)
        else referenceLoop queue logical_page rearKey [frontKey] rest
  else some queue

/-! ## Page table and frame allocation -/

/-- The assignment `pagetable[page][col] = v`. -/
def setPT (pagetable : Nat → Nat → Int) (page col : Nat) (v : Int) : Nat → Nat → Int :=
  fun p c => if p = page ∧ c = col then v else pagetable p c

/-- The function `getFreeFrame`: the returned `unsigned char` and the state
afterwards; `none` when control reaches the end of the function (queue full
and page included) or the value of an empty `dequeue` is used. The parameter
`mode` is not read by the function. -/
def getFreeFrame (s : State) (_mode : Int) (logical_page : Nat) : Option (Nat × State) :=
  if !isFull s.queue then
    some (s.next_frame,
      { s with
        queue := enqueue s.queue logical_page
        pagetable := setPT (setPT s.pagetable logical_page 0 s.next_frame) logical_page 1 1
        next_frame := (s.next_frame + 1) % 256 })
  else if !isIncluded s.queue logical_page then
    match dequeue s.queue with
    | (none, _) => none
    | (some replaced_page, q1) =>
      let free_frame := s.pagetable replaced_page 0
      some ((free_frame % 256).toNat,
        { s with
          queue := enqueue q1 logical_page
          pagetable :=
            setPT (setPT (setPT (setPT s.pagetable replaced_page 0 (-1)) replaced_page 1 0)
              logical_page 0 free_frame) logical_page 1 1 })
  else none

/-! ## TLB -/

/-- The `for` loop of `search_tlb` from index `i`, with `n` iterations left. -/
def search_tlb_loop (tlb : Nat → tlbentry) (logical_page : Nat) : Nat → Nat → Int
  | _, 0 => -1
  | i, n + 1 =>
    if (tlb (i % TLB_SIZE)).logical = logical_page then ((tlb (i % TLB_SIZE)).physical : Int)
    else search_tlb_loop tlb logical_page (i + 1) n

/-- The function `search_tlb`. The loop starts at `max (tlbindex - TLB_SIZE) 0`,
which the truncated subtraction of `Nat` computes, and ends before `tlbindex`.
The argument is converted to `unsigned char`. -/
def search_tlb (s : State) (logical_page : Nat) : Int :=
  search_tlb_loop s.tlb (logical_page % 256) (max (s.tlbindex - TLB_SIZE) 0)
    (s.tlbindex - max (s.tlbindex - TLB_SIZE) 0)

/-- The function `add_to_tlb`; both arguments are converted to `unsigned char`. -/
def add_to_tlb (s : State) (logical : Nat) (physical : Int) : State :=
  { s with
    tlb := fun i =>
      if i = s.tlbindex % TLB_SIZE then
        { logical := logical % 256, physical := (physical % 256).toNat }
      else s.tlb i
    tlbindex := s.tlbindex + 1 }

/-! ## The loop of `main` -/

/-- The call `memcpy(main_memory + physical_page * PAGE_SIZE,
backing + logical_page * PAGE_SIZE, PAGE_SIZE)`. -/
def memcpy (main_memory : Int → Int) (backing : Nat → Int) (physical_page : Int)
    (logical_page : Nat) : Int → Int :=
  fun j =>
    if physical_page * PAGE_SIZE ≤ j ∧ j < physical_page * PAGE_SIZE + PAGE_SIZE then
      backing (logical_page * PAGE_SIZE + (j - physical_page * PAGE_SIZE).toNat)
    else main_memory j

/-- The decoding `(logical_address >> OFFSET_BITS) & PAGE_MASK`. -/
def pageOf (logical_address : Int) : Nat :=
  (Int.land (logical_address >>> OFFSET_BITS) PAGE_MASK).toNat

/-- The decoding `logical_address & OFFSET_MASK`. -/
def offsetOf (logical_address : Int) : Int := Int.land logical_address OFFSET_MASK

/-- The part of the loop body from `search_tlb` to `add_to_tlb`: the state
afterwards and `physical_page`. -/
def lookup (mode : Int) (backing : Nat → Int) (s : State) (logical_page : Nat) :
    Option (State × Int) :=
  let physical_page := search_tlb s logical_page
  if physical_page ≠ -1 then
    some ({ s with tlb_hits := s.tlb_hits + 1 }, physical_page)
  else if s.pagetable logical_page 1 = 0 then
    match getFreeFrame { s with page_faults := s.page_faults + 1 } mode logical_page with
    | none => none
    | some (frame, s1) =>
      let physical_page : Int := frame
      let s2 : State :=
        { s1 with
          main_memory := memcpy s1.main_memory backing physical_page logical_page
          pagetable := setPT (setPT s1.pagetable logical_page 0 physical_page) logical_page 1 1 }
      some (add_to_tlb s2 logical_page physical_page, physical_page)
  else
    let physical_page := s.pagetable logical_page 0
    some (add_to_tlb s logical_page physical_page, physical_page)

/-- One iteration of the `while` loop of `main` on the address read by `atoi`. -/
def translate (mode : Int) (backing : Nat → Int) (s : State) (logical_address : Int) :
    Option (State × Resolution) :=
  let offset := offsetOf logical_address
  let logical_page := pageOf logical_address
  match lookup mode backing { s with total_addresses := s.total_addresses + 1 } logical_page with
  | none => none
  | some (s1, physical_page) =>
    match (if mode = 1 then referencePage s1.queue logical_page else some s1.queue) with
    | none => none
    | some q =>
      some ({ s1 with queue := q },
        { logical_page := logical_page
          offset := offset
          physical_page := physical_page
          physical_address := Int.lor (physical_page <<< (OFFSET_BITS : Int)) offset
          value := s1.main_memory (physical_page * PAGE_SIZE + offset) })

/-- The state after one iteration. -/
def step (mode : Int) (backing : Nat → Int) (s : State) (logical_address : Int) : Option State :=
  (translate mode backing s logical_address).map Prod.fst

/-- The state `main` enters its loop with: zeroed globals, the page table
filled with `(-1, 0)`, an empty queue of capacity `FRAMES`. -/
def init : State :=
  { tlb := fun _ => { logical := 0, physical := 0 }
    tlbindex := 0
    pagetable := fun _ c => if c = 0 then -1 else 0
    main_memory := fun _ => 0
    queue := createQueue FRAMES
    next_frame := 0
    total_addresses := 0
    tlb_hits := 0
    page_faults := 0 }

/-- The loop of `main` over the addresses of the input, in order. -/
def run (mode : Int) (backing : Nat → Int) : State → List Int → Option State
  | s, [] => some s
  | s, a :: rest =>
    match step mode backing s a with
    | none => none
    | some s1 => run mode backing s1 rest

/-- The entries of the live window of the TLB, oldest first: the slots written
by the last `min tlbindex TLB_SIZE` insertions. -/
def liveEntries (s : State) : List tlbentry :=
  (List.range' (s.tlbindex - TLB_SIZE) (min s.tlbindex TLB_SIZE)).map
    (fun i => s.tlb (i % TLB_SIZE))

/-- Every live TLB entry agrees with a valid page-table entry. -/
def TLBConsistent (s : State) : Prop :=
  ∀ e ∈ liveEntries s,
    s.pagetable e.logical 1 = 1 ∧ s.pagetable e.logical 0 = (e.physical : Int)

instance (s : State) : Decidable (TLBConsistent s) := by
  unfold TLBConsistent
  infer_instance

/-- The logical addresses of a trace as pages. -/
def pagesOf (trace : List Int) : List Nat := trace.map pageOf

/-! ## Concrete traces -/

/-- One address in each of the pages 0, 1, ..., 63, in this order. -/
def fillTrace : List Int := (List.range 64).map (fun p => (p : Int) * 256)

/-- A backing store whose bytes tell the pages apart: byte `i` is the page
number of `i`, reduced to the range of `signed char`. -/
def pageBytes : Nat → Int := fun i => ((i / 256 % 128 : Nat) : Int)

/-- The pages 0..63 in order, then page 0 (a TLB miss on a resident page, which
enters the TLB), then page 64 (a fault that evicts page 0 under FIFO). -/
def staleTrace : List Int := fillTrace ++ [0, 16384]

/-! ## Invariants -/

/-- The invariant of the loop of `main`, for a given backing store. -/
structure Inv (bk : Nat → Int) (s : State) : Prop where
  cap : s.queue.capacity = 64
  size_eq : s.queue.size = s.queue.keys.length
  len_le : s.queue.keys.length ≤ 64
  nodup : s.queue.keys.Nodup
  key_lt : ∀ k ∈ s.queue.keys, k < 256
  valid_iff : ∀ p, s.pagetable p 1 = 1 ↔ p ∈ s.queue.keys
  valid_bit : ∀ p, s.pagetable p 1 = 0 ∨ s.pagetable p 1 = 1
  invalid_frame : ∀ p, s.pagetable p 1 = 0 → s.pagetable p 0 = -1
  next_eq : s.next_frame = s.queue.keys.length
  frame_lt : ∀ p ∈ s.queue.keys, 0 ≤ s.pagetable p 0 ∧ s.pagetable p 0 < s.next_frame
  frame_inj : ∀ p ∈ s.queue.keys, ∀ q ∈ s.queue.keys,
    s.pagetable p 0 = s.pagetable q 0 → p = q
  mem_eq : ∀ p ∈ s.queue.keys, ∀ o : Nat, o < 256 →
    s.main_memory (s.pagetable p 0 * 256 + o) = bk (p * 256 + o)
  tlb_lt : ∀ i, s.tlbindex - 16 ≤ i → i < s.tlbindex →
    (s.tlb (i % 16)).logical < 256 ∧ (s.tlb (i % 16)).physical < s.next_frame

/-- The state after a trace of the given pages during which no page was
evicted. -/
structure Warm (bk : Nat → Int) (pages : List Nat) (s : State) : Prop where
  inv : Inv bk s
  tlbc : TLBConsistent s
  keys_iff : ∀ p, p ∈ s.queue.keys ↔ p ∈ pages
  faults : s.page_faults = s.queue.keys.length
  frame_idx : ∀ p ∈ pages,
    s.pagetable p 0 = ((pages.take (pages.indexOf p)).toFinset.card : Int)

/-- The state the FIFO run reaches after `fillTrace`: all 64 frames are in
use and the queue is full. -/
def fullState : State := (run 0 pageBytes init fillTrace).getD init

/-- A sequence of `add_to_tlb` calls, given by their arguments in order. -/
def insertAll (s : State) (history : List (Nat × Int)) : State :=
  history.foldl (fun t e => add_to_tlb t e.1 e.2) s

/-- The TLB probe as the specification words it: among the last `TLB_SIZE`
insertions, oldest first, the frame of the first one whose logical page
matches, and a miss (`-1`) if none matches. Pages and frames are compared and
returned as the `unsigned char` values the entries store. -/
def probeSpec (history : List (Nat × Int)) (p : Nat) : Int :=
  match (history.drop (history.length - TLB_SIZE)).find? (fun e => e.1 % 256 == p % 256) with
  | some e => (((e.2 % 256).toNat : Nat) : Int)
  | none => -1

/-- The value a 32-bit two's-complement `int` holds for the integer `n`: `int`
arithmetic whose result leaves the range wraps around. -/
def int32 (n : Int) : Int := (n + 2147483648) % 4294967296 - 2147483648

/-- The globals `tlb` and `tlbindex`, the index being the `int` it is. -/
structure TlbGlobals where
  tlb : Nat → tlbentry
  tlbindex : Int

/-- The function `search_tlb` on the `int` index. The loop variable starts at
`max(tlbindex - TLB_SIZE, 0)`, which is not negative, and is incremented while
it is below `tlbindex`: the body runs `tlbindex - start` times, and not at all
when `tlbindex ≤ start`. The argument is converted to `unsigned char`. -/
def search_tlb32 (t : TlbGlobals) (logical_page : Nat) : Int :=
  let start := max (int32 (t.tlbindex - TLB_SIZE)) 0
  search_tlb_loop t.tlb (logical_page % 256) start.toNat (t.tlbindex - start).toNat

/-- The function `add_to_tlb` on the `int` index. The slot is
`tlbindex % TLB_SIZE` with the remainder of C, which has the sign of
`tlbindex`; `none` stands for a negative slot, a write in front of the array
`tlb`. Both arguments are converted to `unsigned char`. -/
def add_to_tlb32 (t : TlbGlobals) (logical : Nat) (physical : Int) : Option TlbGlobals :=
  let slot := Int.tmod t.tlbindex TLB_SIZE
  if slot < 0 then none
  else
    some
      { tlb := fun i =>
          if i = slot.toNat then
            { logical := logical % 256, physical := (physical % 256).toNat }
          else t.tlb i
        tlbindex := int32 (t.tlbindex + 1) }

/-- A sequence of `add_to_tlb` calls on the `int` index, given by their
arguments in order. -/
def insertAll32 : TlbGlobals → List (Nat × Int) → Option TlbGlobals
  | t, [] => some t
  | t, e :: rest =>
    match add_to_tlb32 t e.1 e.2 with
    | none => none
    | some t1 => insertAll32 t1 rest

/-- The arrays and the index `main` starts with: a zeroed `tlb` and
`tlbindex = 0`. -/
def tlbInit : TlbGlobals := { tlb := fun _ => { logical := 0, physical := 0 }, tlbindex := 0 }

/-! ## Statistics -/

/-- The quotient `count / (1. * total_addresses)` that `main` prints, of two
`int` values and taken exactly; `none` when `total_addresses` is 0, where the
division of the program has no numeric value (it yields NaN). -/
def rate (count total : Int) : Option ℚ :=
  if total = 0 then none else some ((count : ℚ) / (total : ℚ))

/-- The number of iterations of a run that take `CASE 2` of the loop body: a
TLB miss on a page whose page-table entry is valid, resolved without a
fault. -/
def residentMisses (mode : Int) (backing : Nat → Int) : State → List Int → Nat
  | _, [] => 0
  | s, a :: rest =>
    (if search_tlb s (pageOf a) = -1 ∧ s.pagetable (pageOf a) 1 ≠ 0 then 1 else 0) +
      match step mode backing s a with
      | none => 0
      | some s1 => residentMisses mode backing s1 rest

/-! ## Decoding -/

theorem land_255_bounds (x : Int) : 0 ≤ Int.land x 255 ∧ Int.land x 255 < 256 := by
  cases x with
  | ofNat m =>
    show 0 ≤ ((m &&& 255 : Nat) : Int) ∧ ((m &&& 255 : Nat) : Int) < 256
    have : m &&& 255 ≤ 255 := Nat.and_le_right
    omega
  | negSucc m =>
    show 0 ≤ ((Nat.ldiff 255 m : Nat) : Int) ∧ ((Nat.ldiff 255 m : Nat) : Int) < 256
    have : Nat.ldiff 255 m < 2 ^ 8 := by
      apply Nat.lt_pow_two_of_testBit
      intro i hi
      rw [Nat.testBit_ldiff]
      have : Nat.testBit 255 i = false := by
        apply Nat.testBit_lt_two_pow
        calc 255 < 2 ^ 8 := by norm_num
          _ ≤ 2 ^ i := Nat.pow_le_pow_right (by norm_num) hi
      simp [this]
    omega

theorem pageOf_lt (a : Int) : pageOf a < 256 := by
  unfold pageOf PAGE_MASK
  have := land_255_bounds (a >>> OFFSET_BITS)
  omega

theorem offsetOf_bounds (a : Int) : 0 ≤ offsetOf a ∧ offsetOf a < 256 := by
  unfold offsetOf OFFSET_MASK
  exact land_255_bounds a

/-! ## Queue lemmas -/

theorem isIncludedFrom_iff (l : List Nat) (key : Nat) :
    isIncludedFrom l key = true ↔ key ∈ l := by
  induction l with
  | nil => simp [isIncludedFrom]
  | cons k rest ih =>
    unfold isIncludedFrom
    by_cases h : k = key
    · simp [h]
    · simp only [h, if_false, ih, List.mem_cons]
      constructor
      · intro hm; exact Or.inr hm
      · rintro (hm | hm)
        · exact absurd hm.symm h
        · exact hm

theorem isIncluded_iff (q : Queue) (key : Nat) : isIncluded q key = true ↔ key ∈ q.keys :=
  isIncludedFrom_iff q.keys key

theorem isIncluded_false_iff (q : Queue) (key : Nat) :
    isIncluded q key = false ↔ key ∉ q.keys := by
  rw [← isIncluded_iff]; simp

theorem isFull_iff (q : Queue) : isFull q = true ↔ q.size = q.capacity := by
  simp [isFull]

theorem isFull_false_iff (q : Queue) : isFull q = false ↔ q.size ≠ q.capacity := by
  simp [isFull]

theorem enqueue_of_not_full (q : Queue) (key : Nat) (h : q.size ≠ q.capacity) :
    enqueue q key = { q with keys := key :: q.keys, size := q.size + 1 } := by
  unfold enqueue
  rw [(isFull_false_iff q).2 h]
  simp

theorem dequeue_concat (q : Queue) (l : List Nat) (r : Nat) (h : q.keys = l ++ [r]) :
    dequeue q = (some r, { q with keys := l, size := q.size - 1 }) := by
  unfold dequeue isEmpty
  rw [h]
  simp

/-- The loop of `referencePage` finds `lp` among distinct keys that end in the
rear key, unlinks it and puts it in front. -/
theorem referenceLoop_found (q : Queue) (lp rk : Nat) (mid : List Nat) :
    ∀ before : List Nat, mid.Nodup → lp ∈ mid → mid.getLast? = some rk → lp ≠ rk →
      referenceLoop q lp rk before mid =
        some (enqueue { q with keys := before ++ mid.erase lp, size := q.size - 1 } lp) := by
  induction mid with
  | nil => intro before _ hm; simp at hm
  | cons k after ih =>
    intro before hnd hm hlast hne
    have hnd2 := List.nodup_cons.1 hnd
    unfold referenceLoop
    by_cases hk : k = rk
    · exfalso
      subst hk
      cases after with
      | nil => simp at hm; exact hne hm
      | cons b l =>
        rw [List.getLast?_cons_cons] at hlast
        exact hnd2.1 (List.mem_of_getLast?_eq_some hlast)
    · rw [if_neg hk]
      by_cases hl : k = lp
      · subst hl
        simp
      · rw [if_neg hl]
        have hm2 : lp ∈ after := by
          rcases List.mem_cons.1 hm with h | h
          · exact absurd h.symm hl
          · exact h
        have hlast2 : after.getLast? = some rk := by
          cases after with
          | nil => simp at hm2
          | cons b l => rw [List.getLast?_cons_cons] at hlast; exact hlast
        rw [ih (before ++ [k]) hnd2.2 hm2 hlast2 hne]
        have : (k :: after).erase lp = k :: after.erase lp := by
          apply List.erase_cons_tail
          simpa using hl
        rw [this]
        simp

/-- Under distinct keys and `size ≤ capacity`, `referencePage` returns and is
move-to-front on the keys. -/
theorem referencePage_eq (q : Queue) (lp : Nat) (hnd : q.keys.Nodup)
    (hsz : q.size ≤ q.capacity) :
    referencePage q lp =
      some (if lp ∈ q.keys then { q with keys := lp :: q.keys.erase lp } else q) := by
  unfold referencePage
  by_cases hin : lp ∈ q.keys
  · rw [(isIncluded_iff q lp).2 hin]
    simp only [if_true, if_pos hin]
    obtain ⟨size, capacity, keys⟩ := q
    simp only at hnd hsz hin ⊢
    cases keys with
    | nil => simp at hin
    | cons fk rest =>
      simp only
      obtain ⟨l, rk, hl⟩ : ∃ l rk, fk :: rest = l ++ [rk] := by
        rcases List.eq_nil_or_concat (fk :: rest) with h | ⟨l, rk, h⟩
        · simp at h
        · exact ⟨l, rk, by simpa using h⟩
      have hlast : (fk :: rest).getLast? = some rk := by rw [hl]; simp
      rw [hlast]
      simp only
      by_cases hf : fk = lp
      · subst hf
        simp
      · rw [if_neg hf]
        have herase : (fk :: rest).erase lp = fk :: rest.erase lp := by
          apply List.erase_cons_tail
          simpa using hf
        by_cases hr : rk = lp
        · subst hr
          rw [if_pos rfl]
          rw [dequeue_concat ⟨size, capacity, fk :: rest⟩ l rk hl]
          simp only
          rw [enqueue_of_not_full _ _ (by simp only; omega)]
          have hnd' : (l ++ [rk]).Nodup := hl ▸ hnd
          have hnl : rk ∉ l := by
            intro hm
            have := List.nodup_append.1 hnd'
            exact this.2.2 hm (by simp)
          have : (fk :: rest).erase rk = l := by
            rw [hl, List.erase_append_right _ hnl]
            simp
          rw [this]
          simp
        · rw [if_neg hr]
          have hrest : lp ∈ rest := by
            rcases List.mem_cons.1 hin with h | h
            · exact absurd h.symm hf
            · exact h
          have hlast2 : rest.getLast? = some rk := by
            cases rest with
            | nil => simp at hrest
            | cons b t => rw [List.getLast?_cons_cons] at hlast; exact hlast
          rw [referenceLoop_found _ lp rk rest [fk] (List.nodup_cons.1 hnd).2 hrest hlast2
            (fun h => hr h.symm)]
          rw [enqueue_of_not_full _ _ (by simp only; omega)]
          rw [herase]
          simp
  · rw [(isIncluded_false_iff q lp).2 hin]
    simp [hin]

/-! ## TLB lemmas -/

theorem mem_liveEntries (s : State) (e : tlbentry) :
    e ∈ liveEntries s ↔
      ∃ i, s.tlbindex - 16 ≤ i ∧ i < s.tlbindex ∧ s.tlb (i % 16) = e := by
  unfold liveEntries TLB_SIZE
  simp only [List.mem_map, List.mem_range'_1]
  constructor
  · rintro ⟨i, ⟨h1, h2⟩, h3⟩
    exact ⟨i, h1, by omega, h3⟩
  · rintro ⟨i, h1, h2, h3⟩
    exact ⟨i, ⟨h1, by omega⟩, h3⟩

theorem search_tlb_loop_miss (tlb : Nat → tlbentry) (lp : Nat) :
    ∀ n i, search_tlb_loop tlb lp i n = -1 ↔
      ∀ j, i ≤ j → j < i + n → (tlb (j % 16)).logical ≠ lp := by
  intro n
  induction n with
  | zero =>
    intro i
    simp only [search_tlb_loop, true_iff]
    intro j h1 h2
    omega
  | succ n ih =>
    intro i
    unfold search_tlb_loop TLB_SIZE
    by_cases h : (tlb (i % 16)).logical = lp
    · rw [if_pos h]
      constructor
      · intro hc
        have : (0 : Int) ≤ ((tlb (i % 16)).physical : Int) := Int.ofNat_nonneg _
        omega
      · intro hall
        exact absurd h (hall i (le_refl i) (by omega))
    · rw [if_neg h, ih (i + 1)]
      constructor
      · intro hall j h1 h2
        by_cases hj : j = i
        · subst hj; exact h
        · exact hall j (by omega) (by omega)
      · intro hall j h1 h2
        exact hall j (by omega) (by omega)

theorem search_tlb_loop_hit (tlb : Nat → tlbentry) (lp : Nat) :
    ∀ n i, search_tlb_loop tlb lp i n ≠ -1 →
      ∃ j, i ≤ j ∧ j < i + n ∧ (tlb (j % 16)).logical = lp ∧
        search_tlb_loop tlb lp i n = ((tlb (j % 16)).physical : Int) ∧
        ∀ k, i ≤ k → k < j → (tlb (k % 16)).logical ≠ lp := by
  intro n
  induction n with
  | zero => intro i h; simp [search_tlb_loop] at h
  | succ n ih =>
    intro i h
    unfold search_tlb_loop TLB_SIZE at h ⊢
    by_cases hl : (tlb (i % 16)).logical = lp
    · rw [if_pos hl]
      exact ⟨i, le_refl i, by omega, hl, rfl, fun k h1 h2 => by omega⟩
    · rw [if_neg hl] at h ⊢
      obtain ⟨j, h1, h2, h3, h4, h5⟩ := ih (i + 1) h
      refine ⟨j, by omega, by omega, h3, h4, ?_⟩
      intro k hk1 hk2
      by_cases hki : k = i
      · subst hki; exact hl
      · exact h5 k (by omega) hk2

/-- A miss of `search_tlb`: no entry of the live window holds the page. -/
theorem search_tlb_miss_iff (s : State) (lp : Nat) (hlp : lp < 256) :
    search_tlb s lp = -1 ↔
      ∀ i, s.tlbindex - 16 ≤ i → i < s.tlbindex → (s.tlb (i % 16)).logical ≠ lp := by
  unfold search_tlb TLB_SIZE
  rw [Nat.mod_eq_of_lt hlp, search_tlb_loop_miss]
  constructor
  · intro h i h1 h2
    exact h i (by omega) (by omega)
  · intro h i h1 h2
    exact h i (by omega) (by omega)

/-- A hit of `search_tlb` returns the frame of the oldest live entry holding
the page. -/
theorem search_tlb_hit (s : State) (lp : Nat) (hlp : lp < 256) (h : search_tlb s lp ≠ -1) :
    ∃ i, s.tlbindex - 16 ≤ i ∧ i < s.tlbindex ∧ (s.tlb (i % 16)).logical = lp ∧
      search_tlb s lp = ((s.tlb (i % 16)).physical : Int) ∧
      ∀ k, s.tlbindex - 16 ≤ k → k < i → (s.tlb (k % 16)).logical ≠ lp := by
  unfold search_tlb TLB_SIZE at h ⊢
  rw [Nat.mod_eq_of_lt hlp] at h ⊢
  obtain ⟨j, h1, h2, h3, h4, h5⟩ := search_tlb_loop_hit s.tlb lp _ _ h
  exact ⟨j, by omega, by omega, h3, h4, fun k hk1 hk2 => h5 k (by omega) hk2⟩

theorem add_to_tlb_tlb_new (s : State) (lp : Nat) (f : Int) :
    (add_to_tlb s lp f).tlb (s.tlbindex % 16) =
      { logical := lp % 256, physical := (f % 256).toNat } := by
  simp [add_to_tlb, TLB_SIZE]

theorem add_to_tlb_tlb_old (s : State) (lp : Nat) (f : Int) (i : Nat)
    (h1 : s.tlbindex + 1 - 16 ≤ i) (h2 : i < s.tlbindex) :
    (add_to_tlb s lp f).tlb (i % 16) = s.tlb (i % 16) := by
  have : i % 16 ≠ s.tlbindex % 16 := by omega
  simp [add_to_tlb, TLB_SIZE, this]

/-! ## Page-table lemmas -/

theorem setPT_apply (pt : Nat → Nat → Int) (page col : Nat) (v : Int) (p c : Nat) :
    setPT pt page col v p c = if p = page ∧ c = col then v else pt p c := rfl

/-! ## The four paths of the loop body -/

theorem lookup_hit (mode : Int) (bk : Nat → Int) (s : State) (lp : Nat)
    (h : search_tlb s lp ≠ -1) :
    lookup mode bk s lp = some ({ s with tlb_hits := s.tlb_hits + 1 }, search_tlb s lp) := by
  unfold lookup
  simp only [ne_eq, h, not_false_eq_true, if_true]

theorem lookup_resident (mode : Int) (bk : Nat → Int) (s : State) (lp : Nat)
    (h : search_tlb s lp = -1) (hv : s.pagetable lp 1 ≠ 0) :
    lookup mode bk s lp =
      some (add_to_tlb s lp (s.pagetable lp 0), s.pagetable lp 0) := by
  unfold lookup
  simp only [ne_eq, h, not_true_eq_false, if_false, hv]

theorem setPT_twice (pt : Nat → Nat → Int) (lp : Nat) (f : Int) :
    setPT (setPT (setPT (setPT pt lp 0 f) lp 1 1) lp 0 f) lp 1 1 =
      setPT (setPT pt lp 0 f) lp 1 1 := by
  funext p c
  simp only [setPT_apply]
  split_ifs <;> simp_all

/-- The page-fault path while the queue is not full. -/
theorem lookup_fault_free (mode : Int) (bk : Nat → Int) (s : State) (lp : Nat)
    (h : search_tlb s lp = -1) (hv : s.pagetable lp 1 = 0)
    (hnf : s.queue.size ≠ s.queue.capacity) (hn : s.next_frame < 255) :
    lookup mode bk s lp =
      some (add_to_tlb
        { s with
          page_faults := s.page_faults + 1
          queue := { s.queue with keys := lp :: s.queue.keys, size := s.queue.size + 1 }
          pagetable := setPT (setPT s.pagetable lp 0 s.next_frame) lp 1 1
          next_frame := s.next_frame + 1
          main_memory := memcpy s.main_memory bk s.next_frame lp } lp s.next_frame,
        (s.next_frame : Int)) := by
  unfold lookup
  simp only [ne_eq, h, not_true_eq_false, if_false, hv, if_true]
  unfold getFreeFrame
  simp only [(isFull_false_iff s.queue).2 hnf, Bool.not_false, if_true]
  rw [enqueue_of_not_full _ _ hnf]
  simp only [setPT_twice]
  rw [Nat.mod_eq_of_lt (by omega)]

/-- The page-fault path on a full queue that does not hold the page. -/
theorem lookup_fault_evict (mode : Int) (bk : Nat → Int) (s : State) (lp : Nat)
    (l : List Nat) (r : Nat)
    (h : search_tlb s lp = -1) (hv : s.pagetable lp 1 = 0)
    (hf : s.queue.size = s.queue.capacity) (hin : lp ∉ s.queue.keys)
    (hk : s.queue.keys = l ++ [r])
    (hr0 : 0 ≤ s.pagetable r 0) (hr1 : s.pagetable r 0 < 256) :
    lookup mode bk s lp =
      some (add_to_tlb
        { s with
          page_faults := s.page_faults + 1
          queue := { s.queue with keys := lp :: l, size := s.queue.size }
          pagetable :=
            setPT (setPT (setPT (setPT s.pagetable r 0 (-1)) r 1 0) lp 0 (s.pagetable r 0))
              lp 1 1
          main_memory := memcpy s.main_memory bk (s.pagetable r 0) lp } lp (s.pagetable r 0),
        s.pagetable r 0) := by
  unfold lookup
  simp only [ne_eq, h, not_true_eq_false, if_false, hv, if_true]
  unfold getFreeFrame
  simp only [(isFull_iff s.queue).2 hf, Bool.not_true, Bool.false_eq_true, if_false,
    (isIncluded_false_iff s.queue lp).2 hin, Bool.not_false, if_true]
  rw [dequeue_concat s.queue l r hk]
  simp only
  rw [enqueue_of_not_full _ _ (by simp only; omega)]
  have hcast : (((s.pagetable r 0 % 256).toNat : Nat) : Int) = s.pagetable r 0 := by
    rw [Int.emod_eq_of_lt hr0 hr1]
    exact Int.toNat_of_nonneg hr0
  simp only [hcast, setPT_twice, sub_add_cancel]

/-! ## The state invariant -/

theorem Inv_init (bk : Nat → Int) : Inv bk init where
  cap := rfl
  size_eq := rfl
  len_le := by simp [init, createQueue]
  nodup := by simp [init, createQueue]
  key_lt := by simp [init, createQueue]
  valid_iff := by simp [init, createQueue]
  valid_bit := by simp [init]
  invalid_frame := by simp [init]
  next_eq := rfl
  frame_lt := by simp [init, createQueue]
  frame_inj := by simp [init, createQueue]
  mem_eq := by simp [init, createQueue]
  tlb_lt := by
    intro i h1 h2
    simp [init] at h2

/-- The invariant only reads the TLB, the page table, the memory, the queue
and `next_frame`. -/
theorem Inv.inv_of_eq {bk : Nat → Int} {s t : State} (h : Inv bk s)
    (h1 : t.tlb = s.tlb) (h2 : t.tlbindex = s.tlbindex) (h3 : t.pagetable = s.pagetable)
    (h4 : t.main_memory = s.main_memory) (h5 : t.queue = s.queue)
    (h6 : t.next_frame = s.next_frame) : Inv bk t := by
  obtain ⟨a1, a2, a3, a4, a5, a6, a7, a8, a9⟩ := s
  obtain ⟨b1, b2, b3, b4, b5, b6, b7, b8, b9⟩ := t
  simp only at h1 h2 h3 h4 h5 h6
  subst h1 h2 h3 h4 h5 h6
  exact ⟨h.cap, h.size_eq, h.len_le, h.nodup, h.key_lt, h.valid_iff, h.valid_bit,
    h.invalid_frame, h.next_eq, h.frame_lt, h.frame_inj, h.mem_eq, h.tlb_lt⟩

/-- Reordering the queue keeps the invariant. -/
theorem Inv.queue_perm {bk : Nat → Int} {s : State} (h : Inv bk s) (q : Queue)
    (hp : q.keys.Perm s.queue.keys) (hs : q.size = s.queue.size)
    (hc : q.capacity = s.queue.capacity) : Inv bk { s with queue := q } where
  cap := by simp only [hc, h.cap]
  size_eq := by simp only [hs, h.size_eq, hp.length_eq]
  len_le := by simp only [hp.length_eq]; exact h.len_le
  nodup := hp.nodup_iff.2 h.nodup
  key_lt := fun k hk => h.key_lt k (hp.mem_iff.1 hk)
  valid_iff := fun p => (h.valid_iff p).trans hp.mem_iff.symm
  valid_bit := h.valid_bit
  invalid_frame := h.invalid_frame
  next_eq := by simp only [hp.length_eq]; exact h.next_eq
  frame_lt := fun p hp1 => h.frame_lt p (hp.mem_iff.1 hp1)
  frame_inj := fun p hp1 q hq1 => h.frame_inj p (hp.mem_iff.1 hp1) q (hp.mem_iff.1 hq1)
  mem_eq := fun p hp1 => h.mem_eq p (hp.mem_iff.1 hp1)
  tlb_lt := h.tlb_lt

/-- Inserting a resident mapping into the TLB keeps the invariant. -/
theorem Inv.insert_inv {bk : Nat → Int} {s : State} (h : Inv bk s) (lp : Nat) (f : Int)
    (hf0 : 0 ≤ f) (hf1 : f < s.next_frame) :
    Inv bk (add_to_tlb s lp f) where
  cap := h.cap
  size_eq := h.size_eq
  len_le := h.len_le
  nodup := h.nodup
  key_lt := h.key_lt
  valid_iff := h.valid_iff
  valid_bit := h.valid_bit
  invalid_frame := h.invalid_frame
  next_eq := h.next_eq
  frame_lt := h.frame_lt
  frame_inj := h.frame_inj
  mem_eq := h.mem_eq
  tlb_lt := by
    intro i h1 h2
    have hidx : (Virtmem.add_to_tlb s lp f).tlbindex = s.tlbindex + 1 := rfl
    have hnf : (Virtmem.add_to_tlb s lp f).next_frame = s.next_frame := rfl
    rw [hidx] at h1 h2
    rw [hnf]
    by_cases hi : i = s.tlbindex
    · subst hi
      rw [add_to_tlb_tlb_new]
      have hn := h.next_eq
      have hl := h.len_le
      simp only
      constructor
      · omega
      · omega
    · rw [add_to_tlb_tlb_old s lp f i h1 (by omega)]
      exact h.tlb_lt i (by omega) (by omega)

theorem memcpy_inside (mem : Int → Int) (bk : Nat → Int) (f : Int) (lp o : Nat)
    (ho : o < 256) : memcpy mem bk f lp (f * 256 + o) = bk (lp * 256 + o) := by
  unfold memcpy PAGE_SIZE
  have h1 : f * (256 : Nat) ≤ f * 256 + (o : Int) := by push_cast; omega
  have h2 : f * 256 + (o : Int) < f * (256 : Nat) + (256 : Nat) := by push_cast; omega
  rw [if_pos ⟨h1, h2⟩]
  congr 2
  push_cast
  simp

theorem memcpy_outside (mem : Int → Int) (bk : Nat → Int) (f g : Int) (lp o : Nat)
    (ho : o < 256) (hfg : g ≠ f) : memcpy mem bk f lp (g * 256 + o) = mem (g * 256 + o) := by
  unfold memcpy PAGE_SIZE
  have : ¬ (f * (256 : Nat) ≤ g * 256 + (o : Int) ∧
      g * 256 + (o : Int) < f * (256 : Nat) + (256 : Nat)) := by
    push_cast; omega
  rw [if_neg this]

/-- The invariant after the page-fault path on a queue that is not full. -/
theorem Inv.fault_free {bk : Nat → Int} {s : State} (h : Inv bk s) (lp : Nat) (n : Nat)
    (hlp : lp < 256) (hv : s.pagetable lp 1 = 0) (hnf : s.queue.size ≠ s.queue.capacity) :
    Inv bk
      { s with
        page_faults := n
        queue := { s.queue with keys := lp :: s.queue.keys, size := s.queue.size + 1 }
        pagetable := setPT (setPT s.pagetable lp 0 s.next_frame) lp 1 1
        next_frame := s.next_frame + 1
        main_memory := memcpy s.main_memory bk s.next_frame lp } := by
  have hnin : lp ∉ s.queue.keys := by
    intro hm
    have := (h.valid_iff lp).2 hm
    omega
  have hne : ∀ p ∈ s.queue.keys, p ≠ lp := fun p hp he => hnin (he ▸ hp)
  have hlen : s.queue.keys.length < 64 := by
    have h1 := h.size_eq
    have h2 := h.cap
    have h3 := h.len_le
    omega
  constructor
  · exact h.cap
  · simp only [List.length_cons, h.size_eq]; push_cast; ring
  · simp only [List.length_cons]; omega
  · exact List.nodup_cons.2 ⟨hnin, h.nodup⟩
  · intro k hk
    rcases List.mem_cons.1 hk with hk | hk
    · omega
    · exact h.key_lt k hk
  · intro p
    simp only [setPT_apply, List.mem_cons]
    by_cases hp : p = lp
    · simp [hp]
    · simp only [hp, false_and, if_false, false_or]
      exact h.valid_iff p
  · intro p
    simp only [setPT_apply]
    by_cases hp : p = lp
    · simp [hp]
    · simp only [hp, false_and, if_false]
      exact h.valid_bit p
  · intro p
    simp only [setPT_apply]
    by_cases hp : p = lp
    · simp [hp]
    · simp only [hp, false_and, if_false]
      exact h.invalid_frame p
  · simp only [List.length_cons, h.next_eq]
  · intro p hp
    simp only [setPT_apply]
    rcases List.mem_cons.1 hp with hp | hp
    · simp only [hp, true_and, if_true, one_ne_zero, if_false]
      push_cast
      omega
    · have := h.frame_lt p hp
      simp only [hne p hp, false_and, if_false]
      push_cast
      omega
  · intro p hp q hq
    simp only [setPT_apply]
    rcases List.mem_cons.1 hp with hp | hp <;> rcases List.mem_cons.1 hq with hq | hq
    · intro _; rw [hp, hq]
    · have := h.frame_lt q hq
      simp only [hp, hne q hq, true_and, if_true, one_ne_zero, if_false, false_and]
      intro he; omega
    · have := h.frame_lt p hp
      simp only [hq, hne p hp, true_and, if_true, one_ne_zero, if_false, false_and]
      intro he; omega
    · simp only [hne p hp, hne q hq, false_and, if_false]
      exact h.frame_inj p hp q hq
  · intro p hp o ho
    simp only [setPT_apply]
    rcases List.mem_cons.1 hp with hp | hp
    · simp only [hp, true_and, if_true, one_ne_zero, if_false]
      exact memcpy_inside _ _ _ _ _ ho
    · have := h.frame_lt p hp
      simp only [hne p hp, false_and, if_false]
      rw [memcpy_outside _ _ _ _ _ _ ho (by omega)]
      exact h.mem_eq p hp o ho
  · intro i h1 h2
    have := h.tlb_lt i h1 h2
    simp only
    omega

/-- The invariant after the page-fault path that evicts the rear key `r`. -/
theorem Inv.fault_evict {bk : Nat → Int} {s : State} (h : Inv bk s) (lp : Nat) (n : Nat)
    (l : List Nat) (r : Nat)
    (hlp : lp < 256) (hv : s.pagetable lp 1 = 0) (hk : s.queue.keys = l ++ [r]) :
    Inv bk
      { s with
        page_faults := n
        queue := { s.queue with keys := lp :: l, size := s.queue.size }
        pagetable :=
          setPT (setPT (setPT (setPT s.pagetable r 0 (-1)) r 1 0) lp 0 (s.pagetable r 0))
            lp 1 1
        main_memory := memcpy s.main_memory bk (s.pagetable r 0) lp } := by
  have hnin : lp ∉ s.queue.keys := by
    intro hm
    have := (h.valid_iff lp).2 hm
    omega
  have hmem : ∀ p, p ∈ s.queue.keys ↔ p ∈ l ∨ p = r := by
    intro p; rw [hk]; simp
  have hnd : (l ++ [r]).Nodup := hk ▸ h.nodup
  have hrl : r ∉ l := fun hm => (List.nodup_append.1 hnd).2.2 hm (by simp)
  have hndl : l.Nodup := (List.nodup_append.1 hnd).1
  have hlk : ∀ p ∈ l, p ∈ s.queue.keys := fun p hp => (hmem p).2 (Or.inl hp)
  have hrk : r ∈ s.queue.keys := (hmem r).2 (Or.inr rfl)
  have hne : ∀ p ∈ l, p ≠ lp := fun p hp he => hnin (he ▸ hlk p hp)
  have hner : ∀ p ∈ l, p ≠ r := fun p hp he => hrl (he ▸ hp)
  have hrlp : r ≠ lp := fun he => hnin (he ▸ hrk)
  have hlen : s.queue.keys.length = l.length + 1 := by rw [hk]; simp
  have hfr := h.frame_lt r hrk
  constructor
  · exact h.cap
  · simp only [List.length_cons, h.size_eq, hlen]
  · have := h.len_le
    simp only [List.length_cons]; omega
  · exact List.nodup_cons.2 ⟨fun hm => hnin (hlk lp hm), hndl⟩
  · intro k hk1
    rcases List.mem_cons.1 hk1 with hk1 | hk1
    · omega
    · exact h.key_lt k (hlk k hk1)
  · intro p
    simp only [setPT_apply, List.mem_cons]
    by_cases hp : p = lp
    · simp [hp]
    · by_cases hpr : p = r
      · subst hpr
        simp [hp, hrl]
      · simp only [hp, hpr, false_and, if_false, false_or]
        rw [h.valid_iff p, hmem p]
        simp [hpr]
  · intro p
    simp only [setPT_apply]
    by_cases hp : p = lp
    · simp [hp]
    · by_cases hpr : p = r
      · subst hpr
        simp [hp]
      · simp only [hp, hpr, false_and, if_false]
        exact h.valid_bit p
  · intro p
    simp only [setPT_apply]
    by_cases hp : p = lp
    · simp [hp]
    · by_cases hpr : p = r
      · subst hpr
        simp [hp]
      · simp only [hp, hpr, false_and, if_false]
        exact h.invalid_frame p
  · simp only [List.length_cons, h.next_eq, hlen]
  · intro p hp
    simp only [setPT_apply]
    rcases List.mem_cons.1 hp with hp | hp
    · simp only [hp, true_and, if_true, one_ne_zero, if_false]
      exact hfr
    · simp only [hne p hp, hner p hp, false_and, if_false]
      exact h.frame_lt p (hlk p hp)
  · intro p hp q hq
    simp only [setPT_apply]
    rcases List.mem_cons.1 hp with hp | hp <;> rcases List.mem_cons.1 hq with hq | hq
    · intro _; rw [hp, hq]
    · simp only [hp, hne q hq, hner q hq, true_and, if_true, one_ne_zero, if_false, false_and]
      intro he
      exact absurd (h.frame_inj r hrk q (hlk q hq) he).symm (hner q hq)
    · simp only [hq, hne p hp, hner p hp, true_and, if_true, one_ne_zero, if_false, false_and]
      intro he
      exact absurd (h.frame_inj p (hlk p hp) r hrk he) (hner p hp)
    · simp only [hne p hp, hne q hq, hner p hp, hner q hq, false_and, if_false]
      exact h.frame_inj p (hlk p hp) q (hlk q hq)
  · intro p hp o ho
    simp only [setPT_apply]
    rcases List.mem_cons.1 hp with hp | hp
    · simp only [hp, true_and, if_true, one_ne_zero, if_false]
      exact memcpy_inside _ _ _ _ _ ho
    · simp only [hne p hp, hner p hp, false_and, if_false]
      have hfne : s.pagetable p 0 ≠ s.pagetable r 0 := fun he =>
        hner p hp (h.frame_inj p (hlk p hp) r hrk he)
      rw [memcpy_outside _ _ _ _ _ _ ho hfne]
      exact h.mem_eq p (hlk p hp) o ho
  · intro i h1 h2
    exact h.tlb_lt i h1 h2

/-! ## Every iteration returns and keeps the invariant -/

theorem Inv.not_mem_of_invalid {bk : Nat → Int} {s : State} (h : Inv bk s) {lp : Nat}
    (hv : s.pagetable lp 1 = 0) : lp ∉ s.queue.keys := by
  intro hm
  have := (h.valid_iff lp).2 hm
  omega

theorem Inv.size_ne_cap {bk : Nat → Int} {s : State} (h : Inv bk s)
    (hlen : s.queue.keys.length < 64) : s.queue.size ≠ s.queue.capacity := by
  rw [h.size_eq, h.cap]; omega

theorem Inv.size_eq_cap {bk : Nat → Int} {s : State} (h : Inv bk s)
    (hlen : s.queue.keys.length = 64) : s.queue.size = s.queue.capacity := by
  rw [h.size_eq, h.cap, hlen]; rfl

/-- The page-fault path in the warm-up regime, under the invariant. -/
theorem Inv.lookup_free {bk : Nat → Int} {s : State} (h : Inv bk s) (mode : Int)
    (lp : Nat) (hm : search_tlb s lp = -1) (hv : s.pagetable lp 1 = 0)
    (hlen : s.queue.keys.length < 64) :
    lookup mode bk s lp =
      some (add_to_tlb
        { s with
          page_faults := s.page_faults + 1
          queue := { s.queue with keys := lp :: s.queue.keys, size := s.queue.size + 1 }
          pagetable := setPT (setPT s.pagetable lp 0 s.next_frame) lp 1 1
          next_frame := s.next_frame + 1
          main_memory := memcpy s.main_memory bk s.next_frame lp } lp s.next_frame,
        (s.next_frame : Int)) := by
  apply Virtmem.lookup_fault_free mode bk s lp hm hv (h.size_ne_cap hlen)
  have := h.next_eq
  omega

/-- The page-fault path in the steady-state regime, under the invariant: the
rear key `r` is evicted. -/
theorem Inv.lookup_evict {bk : Nat → Int} {s : State} (h : Inv bk s) (mode : Int)
    (lp : Nat) (hm : search_tlb s lp = -1) (hv : s.pagetable lp 1 = 0)
    (l : List Nat) (r : Nat) (hk : s.queue.keys = l ++ [r])
    (hlen : s.queue.keys.length = 64) :
    lookup mode bk s lp =
      some (add_to_tlb
        { s with
          page_faults := s.page_faults + 1
          queue := { s.queue with keys := lp :: l, size := s.queue.size }
          pagetable :=
            setPT (setPT (setPT (setPT s.pagetable r 0 (-1)) r 1 0) lp 0 (s.pagetable r 0))
              lp 1 1
          main_memory := memcpy s.main_memory bk (s.pagetable r 0) lp } lp (s.pagetable r 0),
        s.pagetable r 0) := by
  have hr : r ∈ s.queue.keys := by rw [hk]; simp
  have hfr := h.frame_lt r hr
  have hn := h.next_eq
  have hl := h.len_le
  exact Virtmem.lookup_fault_evict mode bk s lp l r hm hv (h.size_eq_cap hlen)
    (h.not_mem_of_invalid hv) hk hfr.1 (by omega)

/-- The reference update of the recency policy returns and permutes the keys. -/
theorem Inv.reference {bk : Nat → Int} {s : State} (h : Inv bk s) (mode : Int) (lp : Nat) :
    ∃ q, (if mode = 1 then referencePage s.queue lp else some s.queue) = some q ∧
      q.keys.Perm s.queue.keys ∧ q.size = s.queue.size ∧ q.capacity = s.queue.capacity ∧
      (mode ≠ 1 → q = s.queue) ∧
      (mode = 1 → q.keys = if lp ∈ s.queue.keys then lp :: s.queue.keys.erase lp
        else s.queue.keys) := by
  by_cases hmode : mode = 1
  · have hsz : s.queue.size ≤ s.queue.capacity := by
      rw [h.size_eq, h.cap]
      have := h.len_le
      omega
    rw [if_pos hmode, referencePage_eq s.queue lp h.nodup hsz]
    by_cases hin : lp ∈ s.queue.keys
    · refine ⟨_, rfl, ?_, ?_, ?_, fun hc => absurd hmode hc, fun _ => ?_⟩
      · simp only [if_pos hin]
        exact (List.perm_cons_erase hin).symm
      · simp only [if_pos hin]
      · simp only [if_pos hin]
      · simp only [if_pos hin]
    · refine ⟨_, rfl, ?_, ?_, ?_, fun hc => absurd hmode hc, fun _ => ?_⟩
      · simp only [if_neg hin]; exact List.Perm.refl _
      · simp only [if_neg hin]
      · simp only [if_neg hin]
      · simp only [if_neg hin]
  · rw [if_neg hmode]
    exact ⟨_, rfl, List.Perm.refl _, rfl, rfl, fun _ => rfl, fun hc => absurd hc hmode⟩

theorem step_of_lookup (mode : Int) (bk : Nat → Int) (s s1 : State) (a pp : Int) (q : Queue)
    (h1 : lookup mode bk { s with total_addresses := s.total_addresses + 1 } (pageOf a) =
      some (s1, pp))
    (h2 : (if mode = 1 then referencePage s1.queue (pageOf a) else some s1.queue) = some q) :
    step mode bk s a = some { s1 with queue := q } := by
  unfold step translate
  simp only [h1, h2, Option.map_some']

theorem translate_of_lookup (mode : Int) (bk : Nat → Int) (s s1 : State) (a pp : Int)
    (q : Queue)
    (h1 : lookup mode bk { s with total_addresses := s.total_addresses + 1 } (pageOf a) =
      some (s1, pp))
    (h2 : (if mode = 1 then referencePage s1.queue (pageOf a) else some s1.queue) = some q) :
    translate mode bk s a = some ({ s1 with queue := q },
      { logical_page := pageOf a
        offset := offsetOf a
        physical_page := pp
        physical_address := Int.lor (pp <<< (OFFSET_BITS : Int)) (offsetOf a)
        value := s1.main_memory (pp * PAGE_SIZE + offsetOf a) }) := by
  unfold translate
  simp only [h1, h2]

theorem run_nil (mode : Int) (bk : Nat → Int) (s : State) : run mode bk s [] = some s := rfl

theorem run_cons (mode : Int) (bk : Nat → Int) (s : State) (a : Int) (rest : List Int) :
    run mode bk s (a :: rest) = (step mode bk s a).bind (fun s1 => run mode bk s1 rest) := by
  cases h : step mode bk s a with
  | none => show (match step mode bk s a with
      | none => none
      | some s1 => run mode bk s1 rest) = _
            rw [h]; rfl
  | some s1 => show (match step mode bk s a with
      | none => none
      | some s1 => run mode bk s1 rest) = _
               rw [h]; rfl

theorem run_append (mode : Int) (bk : Nat → Int) (l1 l2 : List Int) :
    ∀ s, run mode bk s (l1 ++ l2) = (run mode bk s l1).bind (fun s1 => run mode bk s1 l2) := by
  induction l1 with
  | nil => intro s; rfl
  | cons a rest ih =>
    intro s
    show run mode bk s (a :: (rest ++ l2)) = _
    rw [run_cons, run_cons]
    cases hstep : step mode bk s a with
    | none => rfl
    | some s1 => exact ih s1

theorem tlbConsistent_iff (s : State) :
    TLBConsistent s ↔
      ∀ i, s.tlbindex - 16 ≤ i → i < s.tlbindex →
        s.pagetable (s.tlb (i % 16)).logical 1 = 1 ∧
        s.pagetable (s.tlb (i % 16)).logical 0 = ((s.tlb (i % 16)).physical : Int) := by
  unfold TLBConsistent
  constructor
  · intro h i h1 h2
    exact h _ ((mem_liveEntries s _).2 ⟨i, h1, h2, rfl⟩)
  · intro h e he
    obtain ⟨i, h1, h2, h3⟩ := (mem_liveEntries s e).1 he
    rw [← h3]
    exact h i h1 h2

theorem length_eq_card_of_mem_iff (keys pages : List Nat) (hnd : keys.Nodup)
    (h : ∀ p, p ∈ keys ↔ p ∈ pages) : keys.length = pages.toFinset.card := by
  rw [← List.toFinset_card_of_nodup hnd]
  congr 1
  ext p
  simp only [List.mem_toFinset]
  exact h p

theorem card_snoc_of_not_mem (pages : List Nat) (lp : Nat) (h : lp ∉ pages) :
    (pages ++ [lp]).toFinset.card = pages.toFinset.card + 1 := by
  rw [List.toFinset_append]
  simp only [List.toFinset_cons, List.toFinset_nil, insert_emptyc_eq]
  rw [Finset.card_union_of_disjoint]
  · simp
  · simp only [Finset.disjoint_singleton_right, List.mem_toFinset]
    exact h

theorem take_indexOf_snoc_of_mem (pages : List Nat) (lp p : Nat) (h : p ∈ pages) :
    (pages ++ [lp]).take ((pages ++ [lp]).indexOf p) = pages.take (pages.indexOf p) := by
  rw [List.indexOf_append_of_mem h]
  exact List.take_append_of_le_length (List.indexOf_le_length)

theorem take_indexOf_snoc_self (pages : List Nat) (lp : Nat) (h : lp ∉ pages) :
    (pages ++ [lp]).take ((pages ++ [lp]).indexOf lp) = pages := by
  rw [List.indexOf_append_of_not_mem h]
  simp

theorem Warm_init (bk : Nat → Int) : Warm bk [] init where
  inv := Inv_init bk
  tlbc := by
    rw [tlbConsistent_iff]
    intro i h1 h2
    simp [init] at h2
  keys_iff := by simp [init, createQueue]
  faults := rfl
  frame_idx := by simp

/-- Inserting a mapping that agrees with the page table keeps the TLB
consistent. -/
theorem tlbConsistent_insert (t : State) (lp : Nat) (f : Int) (hlp : lp < 256)
    (hf0 : 0 ≤ f) (hf1 : f < 256)
    (hold : ∀ i, t.tlbindex - 16 ≤ i → i < t.tlbindex →
      t.pagetable (t.tlb (i % 16)).logical 1 = 1 ∧
      t.pagetable (t.tlb (i % 16)).logical 0 = ((t.tlb (i % 16)).physical : Int))
    (hnew1 : t.pagetable lp 1 = 1) (hnew0 : t.pagetable lp 0 = f) :
    TLBConsistent (add_to_tlb t lp f) := by
  rw [tlbConsistent_iff]
  intro i h1 h2
  have hidx : (add_to_tlb t lp f).tlbindex = t.tlbindex + 1 := rfl
  have hpt : (add_to_tlb t lp f).pagetable = t.pagetable := rfl
  rw [hidx] at h1 h2
  rw [hpt]
  by_cases hi : i = t.tlbindex
  · subst hi
    rw [add_to_tlb_tlb_new]
    simp only [Nat.mod_eq_of_lt hlp]
    refine ⟨hnew1, ?_⟩
    rw [Int.emod_eq_of_lt hf0 hf1, hnew0]
    exact (Int.toNat_of_nonneg hf0).symm
  · rw [add_to_tlb_tlb_old t lp f i h1 (by omega)]
    exact hold i (by omega) (by omega)

theorem search_tlb_insert (t : State) (lp : Nat) (f : Int) (hlp : lp < 256) :
    search_tlb (add_to_tlb t lp f) lp ≠ -1 := by
  intro hc
  rw [search_tlb_miss_iff _ lp hlp] at hc
  have := hc t.tlbindex (by simp [add_to_tlb]) (by simp [add_to_tlb])
  rw [add_to_tlb_tlb_new] at this
  simp only [Nat.mod_eq_of_lt hlp, ne_eq, not_true_eq_false] at this

theorem Warm.snoc_of_mem {bk : Nat → Int} {pages : List Nat} {s t : State} (h : Warm bk pages s)
    (lp : Nat) (hin : lp ∈ pages) (hinv : Inv bk t) (htlbc : TLBConsistent t)
    (hq : ∀ p, p ∈ t.queue.keys ↔ p ∈ s.queue.keys)
    (hlen : t.queue.keys.length = s.queue.keys.length)
    (hpt : t.pagetable = s.pagetable) (hf : t.page_faults = s.page_faults) :
    Warm bk (pages ++ [lp]) t where
  inv := hinv
  tlbc := htlbc
  keys_iff := by
    intro p
    rw [hq p, h.keys_iff p]
    simp only [List.mem_append, List.mem_singleton]
    constructor
    · intro hp; exact Or.inl hp
    · rintro (hp | hp)
      · exact hp
      · rw [hp]; exact hin
  faults := by rw [hf, hlen]; exact h.faults
  frame_idx := by
    intro p hp
    have hp2 : p ∈ pages := by
      rcases List.mem_append.1 hp with hp | hp
      · exact hp
      · rw [List.mem_singleton.1 hp]; exact hin
    rw [take_indexOf_snoc_of_mem pages lp p hp2, hpt]
    exact h.frame_idx p hp2

/-- In the warm-up regime the part of the loop body up to `add_to_tlb` returns
the frame recorded for the page, and faults exactly on a page not seen before,
taking the branch of `getFreeFrame` that evicts nothing. -/
theorem Warm.lookup_warm {bk : Nat → Int} {pages : List Nat} {s : State} (h : Warm bk pages s)
    (mode : Int) (lp : Nat) (hlp : lp < 256) (hcard : (pages ++ [lp]).toFinset.card ≤ 64) :
    ∃ s1 pp, lookup mode bk s lp = some (s1, pp) ∧ Warm bk (pages ++ [lp]) s1 ∧
      s1.pagetable lp 1 = 1 ∧ s1.pagetable lp 0 = pp ∧
      s1.queue.keys = (if lp ∈ pages then s.queue.keys else lp :: s.queue.keys) ∧
      s1.tlb_hits = (if search_tlb s lp = -1 then s.tlb_hits else s.tlb_hits + 1) ∧
      s1.total_addresses = s.total_addresses ∧
      search_tlb s1 lp ≠ -1 := by
  have hinv := h.inv
  have htl := (tlbConsistent_iff s).1 h.tlbc
  by_cases hm : search_tlb s lp = -1
  · by_cases hv : s.pagetable lp 1 = 0
    · -- page fault
      have hnk : lp ∉ s.queue.keys := hinv.not_mem_of_invalid hv
      have hnp : lp ∉ pages := fun hc => hnk ((h.keys_iff lp).2 hc)
      have hlen : s.queue.keys.length < 64 := by
        rw [length_eq_card_of_mem_iff _ _ hinv.nodup h.keys_iff]
        rw [card_snoc_of_not_mem pages lp hnp] at hcard
        omega
      have hnf : (s.next_frame : Int) = (pages.toFinset.card : Int) := by
        rw [hinv.next_eq, length_eq_card_of_mem_iff _ _ hinv.nodup h.keys_iff]
      have hI := (hinv.fault_free lp (s.page_faults + 1) hlp hv (hinv.size_ne_cap hlen)).insert_inv
        lp (s.next_frame : Int) (Int.ofNat_nonneg _) (by simp only; push_cast; omega)
      refine ⟨_, _, hinv.lookup_free mode lp hm hv hlen, ⟨hI, ?_, ?_, ?_, ?_⟩, ?_, ?_, ?_, ?_, ?_, ?_⟩
      · have hn := hinv.next_eq
        have hl := hinv.len_le
        apply tlbConsistent_insert _ lp _ hlp (Int.ofNat_nonneg _) (by omega)
        · intro i h1 h2
          have := htl i h1 h2
          have hne : (s.tlb (i % 16)).logical ≠ lp := by
            intro hc
            rw [hc] at this
            omega
          show setPT (setPT s.pagetable lp 0 s.next_frame) lp 1 1 (s.tlb (i % 16)).logical 1 = 1 ∧
            setPT (setPT s.pagetable lp 0 s.next_frame) lp 1 1 (s.tlb (i % 16)).logical 0 = _
          simp only [setPT_apply, hne, false_and, if_false]
          exact this
        · show setPT (setPT s.pagetable lp 0 s.next_frame) lp 1 1 lp 1 = 1
          simp [setPT_apply]
        · show setPT (setPT s.pagetable lp 0 s.next_frame) lp 1 1 lp 0 = _
          simp [setPT_apply]
      · intro p
        show p ∈ lp :: s.queue.keys ↔ p ∈ pages ++ [lp]
        simp only [List.mem_cons, List.mem_append, List.mem_singleton, h.keys_iff p]
        tauto
      · show s.page_faults + 1 = (lp :: s.queue.keys).length
        simp only [List.length_cons, h.faults]
      · intro p hp
        show setPT (setPT s.pagetable lp 0 s.next_frame) lp 1 1 p 0 = _
        simp only [setPT_apply]
        by_cases hpl : p = lp
        · subst hpl
          rw [take_indexOf_snoc_self pages p hnp]
          simp only [true_and, one_ne_zero, if_false, and_false, if_true]
          exact hnf
        · have hp2 : p ∈ pages := by
            rcases List.mem_append.1 hp with hp | hp
            · exact hp
            · exact absurd (List.mem_singleton.1 hp) hpl
          rw [take_indexOf_snoc_of_mem pages lp p hp2]
          simp only [hpl, false_and, if_false]
          exact h.frame_idx p hp2
      · show setPT (setPT s.pagetable lp 0 s.next_frame) lp 1 1 lp 1 = 1
        simp [setPT_apply]
      · show setPT (setPT s.pagetable lp 0 s.next_frame) lp 1 1 lp 0 = _
        simp [setPT_apply]
      · show lp :: s.queue.keys = _
        rw [if_neg hnp]
      · rw [if_pos hm]; rfl
      · rfl
      · exact search_tlb_insert _ lp _ hlp
    · -- resident page, TLB miss
      have hv1 : s.pagetable lp 1 = 1 := by
        rcases hinv.valid_bit lp with h0 | h1
        · exact absurd h0 hv
        · exact h1
      have hk : lp ∈ s.queue.keys := (hinv.valid_iff lp).1 hv1
      have hp : lp ∈ pages := (h.keys_iff lp).1 hk
      have hfr := hinv.frame_lt lp hk
      have hI := hinv.insert_inv lp _ hfr.1 hfr.2
      have hn := hinv.next_eq
      have hl := hinv.len_le
      refine ⟨_, _, lookup_resident mode bk s lp hm hv, ?_, hv1, rfl, ?_, ?_, rfl, ?_⟩
      · refine h.snoc_of_mem lp hp hI ?_ (fun p => Iff.rfl) rfl rfl rfl
        exact tlbConsistent_insert s lp _ hlp hfr.1 (by omega) htl hv1 rfl
      · show s.queue.keys = _
        rw [if_pos hp]
      · rw [if_pos hm]; rfl
      · exact search_tlb_insert _ lp _ hlp
  · -- TLB hit
    obtain ⟨i, h1, h2, h3, h4, _⟩ := search_tlb_hit s lp hlp hm
    have hc := htl i h1 h2
    rw [h3] at hc
    have hk : lp ∈ s.queue.keys := (hinv.valid_iff lp).1 hc.1
    have hp : lp ∈ pages := (h.keys_iff lp).1 hk
    refine ⟨_, _, lookup_hit mode bk s lp hm, ?_, hc.1, ?_, ?_, ?_, rfl, hm⟩
    · exact h.snoc_of_mem lp hp (hinv.inv_of_eq rfl rfl rfl rfl rfl rfl) h.tlbc
        (fun p => Iff.rfl) rfl rfl rfl
    · rw [h4]; exact hc.2
    · show s.queue.keys = _
      rw [if_pos hp]
    · rw [if_neg hm]

theorem TLBConsistent.tlbc_of_eq {s t : State} (h : TLBConsistent s) (h1 : t.tlb = s.tlb)
    (h2 : t.tlbindex = s.tlbindex) (h3 : t.pagetable = s.pagetable) : TLBConsistent t := by
  rw [tlbConsistent_iff] at h ⊢
  rw [h1, h2, h3]
  exact h

theorem search_tlb_congr {s t : State} (h1 : t.tlb = s.tlb) (h2 : t.tlbindex = s.tlbindex)
    (lp : Nat) : search_tlb t lp = search_tlb s lp := by
  unfold search_tlb
  rw [h1, h2]

/-- One iteration in the warm-up regime: it returns, stays in the regime, reads
the backing-store byte of the address, and moves the queue as the policy says. -/
theorem Warm.translate_ok {bk : Nat → Int} {pages : List Nat} {s : State}
    (h : Warm bk pages s) (mode : Int) (a : Int)
    (hcard : (pages ++ [pageOf a]).toFinset.card ≤ 64) :
    ∃ s1 r, translate mode bk s a = some (s1, r) ∧ Warm bk (pages ++ [pageOf a]) s1 ∧
      s1.total_addresses = s.total_addresses + 1 ∧
      s1.tlb_hits = (if search_tlb s (pageOf a) = -1 then s.tlb_hits else s.tlb_hits + 1) ∧
      (mode ≠ 1 → s1.queue.keys =
        if pageOf a ∈ pages then s.queue.keys else pageOf a :: s.queue.keys) ∧
      (mode = 1 → s1.queue.keys = pageOf a :: s.queue.keys.erase (pageOf a)) ∧
      search_tlb s1 (pageOf a) ≠ -1 ∧
      s1.pagetable (pageOf a) 1 = 1 ∧ s1.pagetable (pageOf a) 0 = r.physical_page ∧
      r.value = bk (pageOf a * 256 + (offsetOf a).toNat) ∧
      r.physical_address = Int.lor (r.physical_page <<< (8 : Int)) (offsetOf a) := by
  have h0 : Warm bk pages { s with total_addresses := s.total_addresses + 1 } :=
    ⟨h.inv.inv_of_eq rfl rfl rfl rfl rfl rfl, h.tlbc.tlbc_of_eq rfl rfl rfl, h.keys_iff, h.faults,
      h.frame_idx⟩
  obtain ⟨s1, pp, hl, hw, hv1, hv0, hkeys, hhits, htot, hsearch⟩ :=
    h0.lookup_warm mode (pageOf a) (pageOf_lt a) hcard
  obtain ⟨q, hq, hperm, hsz, hcap, hq0, hq1⟩ := hw.inv.reference mode (pageOf a)
  have hin1 : pageOf a ∈ s1.queue.keys := (hw.inv.valid_iff _).1 hv1
  refine ⟨_, _, translate_of_lookup mode bk s s1 a pp q hl hq, ?_, htot, hhits, ?_, ?_, ?_,
    hv1, hv0, ?_, rfl⟩
  · exact ⟨hw.inv.queue_perm q hperm hsz hcap, hw.tlbc.tlbc_of_eq rfl rfl rfl,
      fun p => (hperm.mem_iff).trans (hw.keys_iff p),
      by
        show s1.page_faults = q.keys.length
        rw [hperm.length_eq]; exact hw.faults,
      hw.frame_idx⟩
  · intro hmode
    show q.keys = _
    rw [hq0 hmode]
    exact hkeys
  · intro hmode
    show q.keys = _
    rw [hq1 hmode, if_pos hin1, hkeys]
    by_cases hp : pageOf a ∈ pages
    · rw [if_pos hp]
    · rw [if_neg hp]
      have : pageOf a ∉ s.queue.keys := fun hc => hp ((h.keys_iff _).1 hc)
      rw [List.erase_cons_head, List.erase_of_not_mem this]
  · have hc := @search_tlb_congr s1 { s1 with queue := q } rfl rfl (pageOf a)
    rw [hc]
    exact hsearch
  · show s1.main_memory (pp * PAGE_SIZE + offsetOf a) = _
    have ho := offsetOf_bounds a
    have := hw.inv.mem_eq (pageOf a) hin1 (offsetOf a).toNat (by omega)
    rw [hv0, Int.toNat_of_nonneg ho.1] at this
    exact this

theorem Warm.step_warm {bk : Nat → Int} {pages : List Nat} {s : State}
    (h : Warm bk pages s) (mode : Int) (a : Int)
    (hcard : (pages ++ [pageOf a]).toFinset.card ≤ 64) :
    ∃ s1, step mode bk s a = some s1 ∧ Warm bk (pages ++ [pageOf a]) s1 := by
  obtain ⟨s1, r, ht, hw, _⟩ := h.translate_ok mode a hcard
  exact ⟨s1, by unfold step; rw [ht]; rfl, hw⟩

theorem card_prefix_le (l1 l2 : List Nat) : l1.toFinset.card ≤ (l1 ++ l2).toFinset.card := by
  apply Finset.card_le_card
  intro p hp
  simp only [List.mem_toFinset, List.mem_append] at hp ⊢
  exact Or.inl hp

theorem run_snoc (mode : Int) (bk : Nat → Int) (s : State) (l : List Int) (a : Int) :
    run mode bk s (l ++ [a]) = (run mode bk s l).bind (fun s1 => step mode bk s1 a) := by
  rw [run_append]
  congr 1
  funext s1
  rw [run_cons]
  cases step mode bk s1 a <;> rfl

/-- A trace that touches at most 64 distinct pages runs in the warm-up regime. -/
theorem Warm.run_warm (bk : Nat → Int) (mode : Int) (trace : List Int) :
    (pagesOf trace).toFinset.card ≤ 64 →
      ∃ s, run mode bk init trace = some s ∧ Warm bk (pagesOf trace) s := by
  induction trace using List.reverseRecOn with
  | nil => intro _; exact ⟨init, rfl, Warm_init bk⟩
  | append_singleton l a ih =>
    intro hcard
    have hpages : pagesOf (l ++ [a]) = pagesOf l ++ [pageOf a] := by
      simp [pagesOf]
    rw [hpages] at hcard ⊢
    obtain ⟨s, hr, hw⟩ := ih (le_trans (card_prefix_le _ _) hcard)
    obtain ⟨s1, hs, hw1⟩ := hw.step_warm mode a hcard
    exact ⟨s1, by rw [run_snoc, hr]; exact hs, hw1⟩

/-! ## Decoding of non-negative addresses -/

theorem pageOf_natCast (n : Nat) : pageOf (n : Int) = n / 256 % 256 := by
  have h : pageOf (n : Int) = (n >>> 8) &&& 255 := rfl
  rw [h, Nat.shiftRight_eq_div_pow]
  exact Nat.and_pow_two_sub_one_eq_mod _ 8

theorem offsetOf_natCast (n : Nat) : offsetOf (n : Int) = ((n % 256 : Nat) : Int) := by
  have h : offsetOf (n : Int) = ((n &&& 255 : Nat) : Int) := rfl
  rw [h]
  congr 1
  exact Nat.and_pow_two_sub_one_eq_mod _ 8

theorem lor_shiftLeft_natCast (p o : Nat) (ho : o < 256) :
    Int.lor ((p : Int) <<< (OFFSET_BITS : Int)) (o : Int) = ((p * 256 + o : Nat) : Int) := by
  unfold OFFSET_BITS
  rw [Int.shiftLeft_coe_nat]
  have h : Int.lor ((p <<< 8 : Nat) : Int) (o : Int) = ((p <<< 8 ||| o : Nat) : Int) := rfl
  rw [h, Nat.shiftLeft_eq_mul_pow]
  congr 1
  have := @Nat.mul_add_lt_is_or 8 o (by simpa using ho) p
  rw [Nat.mul_comm] at this
  exact this.symm

/-! ## Single iterations and the order of the queue -/

theorem step_of_translate {mode : Int} {bk : Nat → Int} {s s1 : State} {a : Int}
    {r : Resolution} (h : translate mode bk s a = some (s1, r)) :
    step mode bk s a = some s1 := by
  unfold step; rw [h]; rfl

theorem search_tlb_init (lp : Nat) : search_tlb init lp = -1 := rfl

/-- An iteration that faults on a full queue: the rear key `r` loses its frame
to the page of the address. -/
theorem Inv.step_evict {bk : Nat → Int} {s : State} (h : Inv bk s) (mode : Int) (a : Int)
    (l : List Nat) (r : Nat) (hm : search_tlb s (pageOf a) = -1)
    (hv : s.pagetable (pageOf a) 1 = 0) (hk : s.queue.keys = l ++ [r])
    (hlen : s.queue.keys.length = 64) :
    ∃ s1, step mode bk s a = some s1 ∧ Inv bk s1 ∧
      s1.pagetable =
        setPT (setPT (setPT (setPT s.pagetable r 0 (-1)) r 1 0) (pageOf a) 0
          (s.pagetable r 0)) (pageOf a) 1 1 ∧
      s1.page_faults = s.page_faults + 1 ∧ s1.tlb_hits = s.tlb_hits ∧
      s1.next_frame = s.next_frame ∧
      s1.queue.keys = pageOf a :: l := by
  have h0 : Inv bk { s with total_addresses := s.total_addresses + 1 } :=
    h.inv_of_eq rfl rfl rfl rfl rfl rfl
  have hl := h0.lookup_evict mode (pageOf a) hm hv l r hk hlen
  have hr : r ∈ s.queue.keys := by rw [hk]; simp
  have hfr := h.frame_lt r hr
  have hI := (h0.fault_evict (pageOf a) (s.page_faults + 1) l r (pageOf_lt a) hv hk).insert_inv
    (pageOf a) (s.pagetable r 0) hfr.1 hfr.2
  obtain ⟨q, hq, hperm, hsz, hcap, hq0, hq1⟩ := hI.reference mode (pageOf a)
  refine ⟨_, step_of_lookup mode bk s _ a _ q hl hq, hI.queue_perm q hperm hsz hcap,
    rfl, rfl, rfl, rfl, ?_⟩
  show q.keys = pageOf a :: l
  by_cases hmode : mode = 1
  · rw [hq1 hmode]
    show (if pageOf a ∈ pageOf a :: l then pageOf a :: (pageOf a :: l).erase (pageOf a)
      else pageOf a :: l) = _
    simp
  · rw [hq0 hmode]
    rfl

/-- In the warm-up regime a page that has not been referenced misses the TLB
and has an invalid page-table entry. -/
theorem Warm.fresh {bk : Nat → Int} {pages : List Nat} {s : State} (h : Warm bk pages s)
    (lp : Nat) (hlp : lp < 256) (hnew : lp ∉ pages) :
    search_tlb s lp = -1 ∧ s.pagetable lp 1 = 0 := by
  have hnk : lp ∉ s.queue.keys := fun hc => hnew ((h.keys_iff lp).1 hc)
  have hv : s.pagetable lp 1 = 0 := by
    rcases h.inv.valid_bit lp with h0 | h1
    · exact h0
    · exact absurd ((h.inv.valid_iff lp).1 h1) hnk
  refine ⟨?_, hv⟩
  rw [search_tlb_miss_iff s lp hlp]
  intro i h1 h2 hc
  have := ((tlbConsistent_iff s).1 h.tlbc i h1 h2).1
  rw [hc] at this
  omega

/-- For a trace in pairwise distinct pages the queue lists the pages, the
latest in front, under either policy. -/
theorem distinct_keys (mode : Int) (bk : Nat → Int) (trace : List Int) :
    (pagesOf trace).Nodup → trace.length ≤ 64 →
      ∃ s, run mode bk init trace = some s ∧ Warm bk (pagesOf trace) s ∧
        s.queue.keys = (pagesOf trace).reverse := by
  induction trace using List.reverseRecOn with
  | nil => intro _ _; exact ⟨init, rfl, Warm_init bk, rfl⟩
  | append_singleton l a ih =>
    intro hnd hlen
    have hpages : pagesOf (l ++ [a]) = pagesOf l ++ [pageOf a] := by
      simp [pagesOf]
    rw [hpages] at hnd ⊢
    have hnd1 : (pagesOf l).Nodup := (List.nodup_append.1 hnd).1
    have hnin : pageOf a ∉ pagesOf l := fun hc => (List.nodup_append.1 hnd).2.2 hc (by simp)
    have hlen1 : l.length ≤ 64 := by simp at hlen; omega
    have hcard : (pagesOf l ++ [pageOf a]).toFinset.card ≤ 64 := by
      refine le_trans (List.toFinset_card_le _) ?_
      simpa [pagesOf] using hlen
    obtain ⟨s, hr, hw, hkeys⟩ := ih hnd1 hlen1
    obtain ⟨s1, r, ht, hw1, -, -, hk0, hk1, -⟩ := hw.translate_ok mode a hcard
    refine ⟨s1, by rw [run_snoc, hr]; exact step_of_translate ht, hw1, ?_⟩
    have hnk : pageOf a ∉ s.queue.keys := fun hc => hnin ((hw.keys_iff _).1 hc)
    by_cases hmode : mode = 1
    · rw [hk1 hmode, List.erase_of_not_mem hnk, hkeys]
      simp
    · rw [hk0 hmode, if_neg hnin, hkeys]
      simp

/-! ## The recency policy keeps the TLB consistent -/

/-- The part of the loop body up to `add_to_tlb`, under the invariant: it
returns, and the counters, the TLB index, the queue and the page-table entry
of the page change as the path taken says. -/
theorem Inv.lookup_facts {bk : Nat → Int} {s : State} (h : Inv bk s) (mode : Int) (lp : Nat)
    (hlp : lp < 256) :
    ∃ s1 pp, lookup mode bk s lp = some (s1, pp) ∧ Inv bk s1 ∧ 0 ≤ pp ∧
      pp < s1.next_frame ∧
      s1.total_addresses = s.total_addresses ∧
      s1.tlb_hits = (if search_tlb s lp = -1 then s.tlb_hits else s.tlb_hits + 1) ∧
      s1.page_faults =
        (if search_tlb s lp = -1 ∧ s.pagetable lp 1 = 0 then s.page_faults + 1
          else s.page_faults) ∧
      s1.tlbindex = (if search_tlb s lp = -1 then s.tlbindex + 1 else s.tlbindex) ∧
      (search_tlb s lp = -1 → s1.pagetable lp 1 = 1 ∧ s1.pagetable lp 0 = pp) ∧
      (s1.queue.keys.erase lp).Sublist s.queue.keys ∧
      (lp ∉ s1.queue.keys → s1.queue.keys = s.queue.keys) := by
  by_cases hm : search_tlb s lp = -1
  · by_cases hv : s.pagetable lp 1 = 0
    · by_cases hlen : s.queue.keys.length < 64
      · refine ⟨_, _, h.lookup_free mode lp hm hv hlen, ?_, ?_, ?_, rfl, ?_, ?_, ?_, ?_, ?_, ?_⟩
        · apply Inv.insert_inv
          · exact h.fault_free lp _ hlp hv (h.size_ne_cap hlen)
          · exact Int.ofNat_nonneg _
          · simp only; push_cast; omega
        · exact Int.ofNat_nonneg _
        · show (s.next_frame : Int) < ((s.next_frame + 1 : Nat) : Int)
          push_cast; omega
        · rw [if_pos hm]; rfl
        · rw [if_pos ⟨hm, hv⟩]; rfl
        · rw [if_pos hm]; rfl
        · intro _
          constructor
          · show setPT (setPT s.pagetable lp 0 s.next_frame) lp 1 1 lp 1 = 1
            simp [setPT_apply]
          · show setPT (setPT s.pagetable lp 0 s.next_frame) lp 1 1 lp 0 = _
            simp [setPT_apply]
        · show ((lp :: s.queue.keys).erase lp).Sublist s.queue.keys
          rw [List.erase_cons_head]
        · intro hc
          exact absurd (List.mem_cons_self lp s.queue.keys) hc
      · have hlen : s.queue.keys.length = 64 := by
          have := h.len_le
          omega
        obtain ⟨l, r, hk⟩ : ∃ l r, s.queue.keys = l ++ [r] := by
          rcases List.eq_nil_or_concat s.queue.keys with hnil | ⟨l, r, hk⟩
          · rw [hnil] at hlen; simp at hlen
          · exact ⟨l, r, by simpa using hk⟩
        have hr : r ∈ s.queue.keys := by rw [hk]; simp
        have hfr := h.frame_lt r hr
        refine ⟨_, _, h.lookup_evict mode lp hm hv l r hk hlen, ?_, hfr.1, hfr.2, rfl, ?_, ?_,
          ?_, ?_, ?_, ?_⟩
        · apply Inv.insert_inv
          · exact h.fault_evict lp _ l r hlp hv hk
          · exact hfr.1
          · exact hfr.2
        · rw [if_pos hm]; rfl
        · rw [if_pos ⟨hm, hv⟩]; rfl
        · rw [if_pos hm]; rfl
        · intro _
          constructor
          · show setPT (setPT (setPT (setPT s.pagetable r 0 (-1)) r 1 0) lp 0
              (s.pagetable r 0)) lp 1 1 lp 1 = 1
            simp [setPT_apply]
          · show setPT (setPT (setPT (setPT s.pagetable r 0 (-1)) r 1 0) lp 0
              (s.pagetable r 0)) lp 1 1 lp 0 = _
            simp [setPT_apply]
        · show ((lp :: l).erase lp).Sublist s.queue.keys
          rw [List.erase_cons_head, hk]
          exact List.sublist_append_left l [r]
        · intro hc
          exact absurd (List.mem_cons_self lp l) hc
    · have hv1 : s.pagetable lp 1 = 1 := by
        rcases h.valid_bit lp with h0 | h1
        · exact absurd h0 hv
        · exact h1
      have hfr := h.frame_lt lp ((h.valid_iff lp).1 hv1)
      refine ⟨_, _, lookup_resident mode bk s lp hm hv, h.insert_inv lp _ hfr.1 hfr.2,
        hfr.1, hfr.2, rfl, ?_, ?_, ?_, fun _ => ⟨hv1, rfl⟩, ?_, fun _ => rfl⟩
      · rw [if_pos hm]; rfl
      · rw [if_neg (fun hc => hv hc.2)]; rfl
      · rw [if_pos hm]; rfl
      · exact List.erase_sublist lp s.queue.keys
  · obtain ⟨i, h1, h2, h3, h4, _⟩ := search_tlb_hit s lp hlp hm
    have hb := (h.tlb_lt i h1 h2).2
    refine ⟨_, _, lookup_hit mode bk s lp hm, ?_, ?_, ?_, rfl, ?_, ?_, ?_,
      fun hc => absurd hc hm, ?_, fun _ => rfl⟩
    · exact h.inv_of_eq rfl rfl rfl rfl rfl rfl
    · rw [h4]; exact Int.ofNat_nonneg _
    · rw [h4]
      show ((s.tlb (i % 16)).physical : Int) < (s.next_frame : Int)
      exact_mod_cast hb
    · rw [if_neg hm]
    · rw [if_neg (fun hc => hm hc.1)]
    · rw [if_neg hm]
    · exact List.erase_sublist lp s.queue.keys

/-- One iteration of the loop, under the invariant: it returns, keeps the
invariant, resolves to a frame that has been handed out, counts the address
in exactly one way, and after a TLB miss reads the backing-store byte of the
decoded address. -/
theorem Inv.translate_facts {bk : Nat → Int} {s : State} (h : Inv bk s) (mode : Int)
    (a : Int) :
    ∃ s1 r, translate mode bk s a = some (s1, r) ∧ Inv bk s1 ∧
      r.logical_page = pageOf a ∧ r.offset = offsetOf a ∧
      0 ≤ r.physical_page ∧ r.physical_page < s1.next_frame ∧
      r.physical_address = Int.lor (r.physical_page <<< (8 : Int)) (offsetOf a) ∧
      s1.total_addresses = s.total_addresses + 1 ∧
      s1.tlb_hits =
        (if search_tlb s (pageOf a) = -1 then s.tlb_hits else s.tlb_hits + 1) ∧
      s1.page_faults =
        (if search_tlb s (pageOf a) = -1 ∧ s.pagetable (pageOf a) 1 = 0
          then s.page_faults + 1 else s.page_faults) ∧
      s1.tlbindex =
        (if search_tlb s (pageOf a) = -1 then s.tlbindex + 1 else s.tlbindex) ∧
      (search_tlb s (pageOf a) = -1 →
        s1.pagetable (pageOf a) 1 = 1 ∧ s1.pagetable (pageOf a) 0 = r.physical_page ∧
        r.value = bk (pageOf a * 256 + (offsetOf a).toNat)) ∧
      (mode = 1 →
        (s1.queue.keys = s.queue.keys ∧ pageOf a ∉ s.queue.keys) ∨
        ∃ K, s1.queue.keys = pageOf a :: K ∧ K.Sublist s.queue.keys ∧ pageOf a ∉ K) := by
  have h0 : Inv bk { s with total_addresses := s.total_addresses + 1 } :=
    h.inv_of_eq rfl rfl rfl rfl rfl rfl
  obtain ⟨s1, pp, hl, hi, hp0, hp1, htot, hhits, hfaults, hidx, hmiss, hsub, hsame⟩ :=
    h0.lookup_facts mode (pageOf a) (pageOf_lt a)
  obtain ⟨q, hq, hperm, hsz, hcap, hq0, hq1⟩ := hi.reference mode (pageOf a)
  refine ⟨_, _, translate_of_lookup mode bk s s1 a pp q hl hq, hi.queue_perm q hperm hsz hcap,
    rfl, rfl, hp0, hp1, rfl, htot, hhits, hfaults, hidx, ?_, ?_⟩
  · intro hm
    obtain ⟨hv1, hv0⟩ := hmiss hm
    refine ⟨hv1, hv0, ?_⟩
    show s1.main_memory (pp * PAGE_SIZE + offsetOf a) = _
    have ho := offsetOf_bounds a
    have hin : pageOf a ∈ s1.queue.keys := (hi.valid_iff _).1 hv1
    have := hi.mem_eq (pageOf a) hin (offsetOf a).toNat (by omega)
    rw [hv0, Int.toNat_of_nonneg ho.1] at this
    exact this
  · intro hmode
    have hk := hq1 hmode
    by_cases hin : pageOf a ∈ s1.queue.keys
    · right
      rw [if_pos hin] at hk
      exact ⟨_, hk, hsub, hi.nodup.not_mem_erase⟩
    · left
      rw [if_neg hin] at hk
      have he := hsame hin
      refine ⟨hk.trans he, ?_⟩
      intro hc
      apply hin
      rw [he]
      exact hc

theorem insertAll_snoc (s : State) (h : List (Nat × Int)) (e : Nat × Int) :
    insertAll s (h ++ [e]) = add_to_tlb (insertAll s h) e.1 e.2 := by
  unfold insertAll
  rw [List.foldl_append]
  rfl

theorem insertAll_tlbindex (s : State) (h : List (Nat × Int)) :
    (insertAll s h).tlbindex = s.tlbindex + h.length := by
  induction h using List.reverseRecOn with
  | nil => rfl
  | append_singleton h e ih =>
    rw [insertAll_snoc]
    show (insertAll s h).tlbindex + 1 = _
    rw [ih]
    simp
    omega

/-- After a sequence of insertions from `tlbindex = 0`, the slot of each of
the last 16 insertions holds its arguments as `unsigned char`. -/
theorem insertAll_tlb (s : State) (hs : s.tlbindex = 0) (h : List (Nat × Int)) :
    ∀ i e, h[i]? = some e → h.length ≤ i + 16 →
      (insertAll s h).tlb (i % 16) =
        { logical := e.1 % 256, physical := (e.2 % 256).toNat } := by
  induction h using List.reverseRecOn with
  | nil => intro i e hi; simp at hi
  | append_singleton h e0 ih =>
    intro i e hi hlen
    rw [insertAll_snoc]
    have hidx : (insertAll s h).tlbindex = h.length := by rw [insertAll_tlbindex, hs]; simp
    simp only [List.length_append, List.length_singleton] at hlen
    by_cases hlt : i < h.length
    · rw [List.getElem?_append_left hlt] at hi
      rw [add_to_tlb_tlb_old _ _ _ i (by rw [hidx]; omega) (by rw [hidx]; exact hlt)]
      exact ih i e hi (by omega)
    · have hlt2 : i < (h ++ [e0]).length := by
        by_contra hc
        rw [List.getElem?_eq_none (by omega)] at hi
        exact Option.noConfusion hi
      simp only [List.length_append, List.length_singleton] at hlt2
      have hie : i = h.length := by omega
      subst hie
      rw [List.getElem?_append_right (le_refl _)] at hi
      simp only [Nat.sub_self, List.getElem?_cons_zero, Option.some.injEq] at hi
      subst hi
      have := add_to_tlb_tlb_new (insertAll s h) e0.1 e0.2
      rw [hidx] at this
      exact this

theorem search_tlb_loop_find (tlb : Nat → tlbentry) (p : Nat) :
    ∀ n i, search_tlb_loop tlb p i n =
      match ((List.range' i n).map (fun j => tlb (j % 16))).find?
          (fun e => e.logical == p) with
      | some e => ((e.physical : Nat) : Int)
      | none => -1 := by
  intro n
  induction n with
  | zero => intro i; rfl
  | succ n ih =>
    intro i
    unfold search_tlb_loop TLB_SIZE
    rw [List.range'_succ, List.map_cons, List.find?_cons]
    by_cases h : (tlb (i % 16)).logical = p
    · rw [if_pos h]
      simp [h]
    · rw [if_neg h, ih (i + 1)]
      have : ((tlb (i % 16)).logical == p) = false := by simpa using h
      rw [this]

/-- The live window after a sequence of insertions from `tlbindex = 0` is the
list of the last 16 insertions. -/
theorem insertAll_window (s : State) (hs : s.tlbindex = 0) (h : List (Nat × Int)) :
    (List.range' (h.length - 16) (h.length - (h.length - 16))).map
        (fun j => (insertAll s h).tlb (j % 16)) =
      (h.drop (h.length - 16)).map
        (fun e => ({ logical := e.1 % 256, physical := (e.2 % 256).toNat } : tlbentry)) := by
  apply List.ext_getElem?
  intro j
  rw [List.getElem?_map, List.getElem?_map, List.getElem?_drop]
  by_cases hj : j < h.length - (h.length - 16)
  · have hlt : h.length - 16 + j < h.length := by omega
    rw [List.getElem?_range' _ _ hj, List.getElem?_eq_getElem hlt]
    simp only [Option.map_some', Option.some.injEq, Nat.one_mul]
    exact insertAll_tlb s hs h _ _ (List.getElem?_eq_getElem hlt) (by omega)
  · rw [List.getElem?_eq_none (by simp; omega), List.getElem?_eq_none (by omega)]
    rfl

/-- The probe of the code is the probe of the specification. -/
theorem search_tlb_insertAll (s : State) (hs : s.tlbindex = 0) (h : List (Nat × Int))
    (p : Nat) : search_tlb (insertAll s h) p = probeSpec h p := by
  unfold search_tlb probeSpec TLB_SIZE
  rw [search_tlb_loop_find]
  have hidx : (insertAll s h).tlbindex = h.length := by rw [insertAll_tlbindex, hs]; simp
  rw [hidx]
  have hmax : max (h.length - 16) 0 = h.length - 16 := by omega
  rw [hmax, insertAll_window s hs h, List.find?_map]
  cases hf : List.find? ((fun e => e.logical == p % 256) ∘
      fun e : Nat × Int =>
        ({ logical := e.1 % 256, physical := (e.2 % 256).toNat } : tlbentry))
      (List.drop (h.length - 16) h) with
  | none =>
    have hf2 : List.find? (fun e : Nat × Int => e.1 % 256 == p % 256)
        (List.drop (h.length - 16) h) = none := hf
    rw [hf2]
    rfl
  | some e =>
    have hf2 : List.find? (fun e : Nat × Int => e.1 % 256 == p % 256)
        (List.drop (h.length - 16) h) = some e := hf
    rw [hf2]
    rfl

theorem probeSpec_miss_iff (h : List (Nat × Int)) (p : Nat) :
    probeSpec h p = -1 ↔ ∀ e ∈ h.drop (h.length - 16), e.1 % 256 ≠ p % 256 := by
  unfold probeSpec TLB_SIZE
  cases hf : (h.drop (h.length - 16)).find? (fun e => e.1 % 256 == p % 256) with
  | none =>
    simp only [true_iff]
    intro e he
    have := List.find?_eq_none.1 hf e he
    simpa using this
  | some e =>
    have hm := List.mem_of_find?_eq_some hf
    have hp := List.find?_some hf
    simp only
    constructor
    · intro hc
      have : (0 : Int) ≤ (((e.2 % 256).toNat : Nat) : Int) := Int.ofNat_nonneg _
      omega
    · intro hall
      exact absurd (by simpa using hp) (hall e hm)

theorem probeSpec_found (h : List (Nat × Int)) (p : Nat) (A B : List (Nat × Int)) (f : Int)
    (hd : h.drop (h.length - 16) = A ++ (p, f) :: B)
    (hA : ∀ e ∈ A, e.1 % 256 ≠ p % 256) :
    probeSpec h p = (((f % 256).toNat : Nat) : Int) := by
  unfold probeSpec TLB_SIZE
  rw [hd, List.find?_append]
  have hnone : A.find? (fun e => e.1 % 256 == p % 256) = none := by
    rw [List.find?_eq_none]
    intro e he
    simpa using hA e he
  rw [hnone]
  simp

/-! ## The order of the queue under the recency policy -/

theorem residentMisses_cons (mode : Int) (bk : Nat → Int) (s s1 : State) (a : Int)
    (rest : List Int) (h : step mode bk s a = some s1) :
    residentMisses mode bk s (a :: rest) =
      (if search_tlb s (pageOf a) = -1 ∧ s.pagetable (pageOf a) 1 ≠ 0 then 1 else 0) +
        residentMisses mode bk s1 rest := by
  show (if search_tlb s (pageOf a) = -1 ∧ s.pagetable (pageOf a) 1 ≠ 0 then 1 else 0) +
      (match step mode bk s a with
        | none => 0
        | some s1 => residentMisses mode bk s1 rest) = _
  rw [h]

/-- Every iteration counts its address in exactly one of `tlb_hits`,
`page_faults` and the misses resolved without a fault. -/
theorem Inv.count_run (bk : Nat → Int) (mode : Int) (trace : List Int) :
    ∀ s, Inv bk s → ∃ s1, run mode bk s trace = some s1 ∧ Inv bk s1 ∧
      s1.total_addresses = s.total_addresses + trace.length ∧
      s1.tlb_hits + s1.page_faults + residentMisses mode bk s trace =
        s.tlb_hits + s.page_faults + trace.length := by
  induction trace with
  | nil => intro s h; exact ⟨s, rfl, h, rfl, rfl⟩
  | cons a rest ih =>
    intro s h
    obtain ⟨s1, r, ht, hi, -, -, -, -, -, htot, hhits, hfaults, -⟩ := h.translate_facts mode a
    have hs := step_of_translate ht
    obtain ⟨s2, hr, hi2, htot2, hcount⟩ := ih s1 hi
    refine ⟨s2, by rw [run_cons, hs]; exact hr, hi2, ?_, ?_⟩
    · rw [htot2, htot]; simp only [List.length_cons]; omega
    · rw [residentMisses_cons mode bk s s1 a rest hs]
      simp only [List.length_cons]
      by_cases hm : search_tlb s (pageOf a) = -1
      · by_cases hv : s.pagetable (pageOf a) 1 = 0
        · rw [if_pos hm] at hhits
          rw [if_pos ⟨hm, hv⟩] at hfaults
          rw [if_neg (fun hc => hc.2 hv)]
          omega
        · rw [if_pos hm] at hhits
          rw [if_neg (fun hc => hv hc.2)] at hfaults
          rw [if_pos ⟨hm, hv⟩]
          omega
      · rw [if_neg hm] at hhits
        rw [if_neg (fun hc => hm hc.1)] at hfaults
        rw [if_neg (fun hc => hm hc.1)]
        omega

/-! ## The `int` counters below their limit and at it -/

theorem int32_of_lt (n : Int) (h0 : -2147483648 ≤ n) (h1 : n < 2147483648) : int32 n = n := by
  unfold int32
  omega

/-- Incrementing the wrapped value and wrapping again is wrapping the
incremented count: after `n` increments from 0 an `int` holds `int32 n`. -/
theorem int32_incr (n : Int) : int32 (int32 n + 1) = int32 (n + 1) := by
  unfold int32
  omega

/-! ## The statistics of a run -/

theorem rate_bounds (count total : Int) (hc : 0 ≤ count) (hle : count ≤ total)
    (h0 : 0 < total) : ∃ r : ℚ, rate count total = some r ∧ 0 ≤ r ∧ r ≤ 1 := by
  refine ⟨(count : ℚ) / (total : ℚ), ?_, ?_, ?_⟩
  · unfold rate
    rw [if_neg (by omega)]
  · exact div_nonneg (by exact_mod_cast hc) (by exact_mod_cast h0.le)
  · have hpos : (0 : ℚ) < (total : ℚ) := by exact_mod_cast h0
    rw [div_le_one hpos]
    exact_mod_cast hle

/-- A quotient of a positive count by a negative total is no rate in `[0, 1]`. -/
theorem rate_negative (count total : Int) (hc : 0 < count) (h0 : total < 0) :
    ¬ ∃ r : ℚ, rate count total = some r ∧ 0 ≤ r ∧ r ≤ 1 := by
  rintro ⟨r, hr, hr0, -⟩
  unfold rate at hr
  rw [if_neg (by omega)] at hr
  have hr' : (count : ℚ) / (total : ℚ) = r := Option.some.inj hr
  have hneg : (count : ℚ) / (total : ℚ) < 0 :=
    div_neg_of_pos_of_neg (by exact_mod_cast hc) (by exact_mod_cast h0)
  rw [hr'] at hneg
  exact absurd hr0 (not_le.2 hneg)

/-- The FIFO run over `n + 1` copies of the address 0: the first one faults,
every later one hits the TLB. -/
theorem run_same_address (bk : Nat → Int) (n : Nat) :
    ∃ s, run 0 bk init (List.replicate (n + 1) 0) = some s ∧
      s.total_addresses = n + 1 ∧ s.tlb_hits = n ∧ s.page_faults = 1 ∧
      search_tlb s 0 ≠ -1 := by
  induction n with
  | zero =>
    obtain ⟨s1, r, ht, hw, htot, hhits, hkeys, -, hs1, -⟩ :=
      (Warm_init bk).translate_ok 0 0 (le_trans (List.toFinset_card_le _) (by simp))
    refine ⟨s1, ?_, htot, ?_, ?_, hs1⟩
    · show run 0 bk init [0] = some s1
      rw [run_cons, step_of_translate ht]
      rfl
    · rw [hhits, search_tlb_init, if_pos rfl]
      rfl
    · rw [hw.faults, hkeys (by decide)]
      rfl
  | succ n ih =>
    obtain ⟨s, hr, htot, hhits, hfaults, hhit⟩ := ih
    have hhit' : search_tlb { s with total_addresses := s.total_addresses + 1 } (pageOf 0) ≠
        -1 := by
      rw [search_tlb_congr rfl rfl]
      exact hhit
    have hstep := step_of_lookup 0 bk s _ 0 _ _ (lookup_hit 0 bk _ (pageOf 0) hhit') rfl
    obtain ⟨s2, hs2, ht2, hh2, hf2, hsr⟩ : ∃ s2, step 0 bk s 0 = some s2 ∧
        s2.total_addresses = s.total_addresses + 1 ∧ s2.tlb_hits = s.tlb_hits + 1 ∧
        s2.page_faults = s.page_faults ∧ search_tlb s2 0 = search_tlb s 0 :=
      ⟨_, hstep, rfl, rfl, rfl, search_tlb_congr rfl rfl 0⟩
    refine ⟨s2, ?_, by omega, by omega, by omega, by rw [hsr]; exact hhit⟩
    rw [List.replicate_succ', run_snoc, hr]
    exact hs2

/-- The counters after `2 ^ 31` copies of the address 0 under the FIFO policy:
`total_addresses` has wrapped to `INT_MIN`, and with it neither the count
inequality nor either rate is as claimed. -/
theorem rates_after_wrap (n : Nat) (hn : n = 2147483648) :
    ∃ s ∈ run 0 (fun _ => 0) init (List.replicate n 0),
      int32 s.total_addresses = -2147483648 ∧
      ¬ (int32 s.page_faults + residentMisses 0 (fun _ => 0) init (List.replicate n 0) ≤
        int32 s.total_addresses) ∧
      (¬ ∃ r : ℚ, rate (int32 s.page_faults) (int32 s.total_addresses) = some r ∧
        0 ≤ r ∧ r ≤ 1) ∧
      ¬ ∃ r : ℚ, rate (int32 s.tlb_hits) (int32 s.total_addresses) = some r ∧
        0 ≤ r ∧ r ≤ 1 := by
  obtain ⟨s, hr, htot, hhits, hfaults, -⟩ := run_same_address (fun _ => 0) 2147483647
  have hn' : n = 2147483647 + 1 := by omega
  have htot' : int32 s.total_addresses = -2147483648 := by rw [htot]; decide
  have hf' : int32 s.page_faults = 1 := by rw [hfaults]; decide
  have hh' : int32 s.tlb_hits = 2147483647 := by rw [hhits]; decide
  refine ⟨s, by rw [hn']; exact hr, htot', ?_, ?_, ?_⟩
  · rw [hf', htot']
    generalize residentMisses 0 (fun _ => 0) init (List.replicate n 0) = m
    clear hr htot hhits hfaults htot' hf' hh' hn hn'
    omega
  · apply rate_negative
    · rw [hf']; decide
    · rw [htot']; decide
  · apply rate_negative
    · rw [hh']; decide
    · rw [htot']; decide

/-! ## The TLB index at the width of `int` -/

theorem insertAll32_append (h1 h2 : List (Nat × Int)) :
    ∀ t, insertAll32 t (h1 ++ h2) = (insertAll32 t h1).bind (fun t1 => insertAll32 t1 h2) := by
  induction h1 with
  | nil => intro t; rfl
  | cons e rest ih =>
    intro t
    show (match add_to_tlb32 t e.1 e.2 with
      | none => none
      | some t1 => insertAll32 t1 (rest ++ h2)) =
      (match add_to_tlb32 t e.1 e.2 with
      | none => none
      | some t1 => insertAll32 t1 rest).bind (fun t1 => insertAll32 t1 h2)
    cases add_to_tlb32 t e.1 e.2 with
    | none => rfl
    | some t1 => exact ih t1

/-- Below `INT_MAX` the insertion on the `int` index does what `add_to_tlb`
does on the counted index. -/
theorem add_to_tlb32_eq (s : State) (lp : Nat) (f : Int) (h : s.tlbindex < 2147483647) :
    add_to_tlb32 { tlb := s.tlb, tlbindex := s.tlbindex } lp f =
      some { tlb := (add_to_tlb s lp f).tlb, tlbindex := ((add_to_tlb s lp f).tlbindex : Nat) } := by
  unfold add_to_tlb32 add_to_tlb TLB_SIZE
  have hslot : Int.tmod (s.tlbindex : Int) ((16 : Nat) : Int) = ((s.tlbindex % 16 : Nat) : Int) := by
    rw [Int.tmod_eq_emod (Int.ofNat_nonneg _) (Int.ofNat_nonneg _)]
    rfl
  simp only [hslot]
  rw [if_neg (by omega)]
  simp only [Int.toNat_ofNat, Option.some.injEq, TlbGlobals.mk.injEq, true_and]
  rw [int32_of_lt _ (by omega) (by omega)]
  push_cast
  rfl

theorem insertAll_cons (s : State) (e : Nat × Int) (rest : List (Nat × Int)) :
    insertAll s (e :: rest) = insertAll (add_to_tlb s e.1 e.2) rest := rfl

/-- Fewer than `2 ^ 31` insertions on the `int` index return, and leave the
array and the index that the counted index gives. -/
theorem insertAll32_eq (h : List (Nat × Int)) :
    ∀ s : State, s.tlbindex + h.length < 2147483648 →
      insertAll32 { tlb := s.tlb, tlbindex := s.tlbindex } h =
        some { tlb := (insertAll s h).tlb, tlbindex := ((insertAll s h).tlbindex : Nat) } := by
  induction h with
  | nil => intro s _; rfl
  | cons e rest ih =>
    intro s hlen
    simp only [List.length_cons] at hlen
    show (match add_to_tlb32 { tlb := s.tlb, tlbindex := s.tlbindex } e.1 e.2 with
      | none => none
      | some t1 => insertAll32 t1 rest) = _
    rw [add_to_tlb32_eq s e.1 e.2 (by omega), insertAll_cons]
    apply ih
    show s.tlbindex + 1 + rest.length < 2147483648
    omega

/-- With the index below `2 ^ 31` the probe on the `int` index is the probe on
the counted index. -/
theorem search_tlb32_eq (s : State) (p : Nat) (h : s.tlbindex < 2147483648) :
    search_tlb32 { tlb := s.tlb, tlbindex := s.tlbindex } p = search_tlb s p := by
  unfold search_tlb32 search_tlb TLB_SIZE
  simp only
  have h1 : int32 ((s.tlbindex : Int) - ((16 : Nat) : Int)) = (s.tlbindex : Int) - 16 := by
    rw [int32_of_lt _ (by omega) (by omega)]
    rfl
  rw [h1]
  have h2 : (max ((s.tlbindex : Int) - 16) 0).toNat = max (s.tlbindex - 16) 0 := by omega
  have h3 : ((s.tlbindex : Int) - max ((s.tlbindex : Int) - 16) 0).toNat =
      s.tlbindex - max (s.tlbindex - 16) 0 := by omega
  rw [h2, h3]

/-- At `tlbindex = INT_MAX` the insertion writes slot 15 and leaves the index
at `INT_MIN`, and then the probe runs its loop body not once. -/
theorem search_tlb32_after_wrap (t : TlbGlobals) (h : t.tlbindex = 2147483647) (lp : Nat)
    (f : Int) :
    ∃ t1, add_to_tlb32 t lp f = some t1 ∧ t1.tlbindex = -2147483648 ∧
      ∀ p, search_tlb32 t1 p = -1 := by
  unfold add_to_tlb32 TLB_SIZE
  rw [h]
  have hw : int32 (2147483647 + 1) = -2147483648 := by decide
  refine ⟨_, if_neg (by decide), hw, ?_⟩
  intro p
  unfold search_tlb32 TLB_SIZE
  simp only
  have h1 : int32 (int32 (2147483647 + 1) - ((16 : Nat) : Int)) = 2147483632 := by decide
  rw [h1]
  have h2 : (int32 (2147483647 + 1) - max (2147483632 : Int) 0).toNat = 0 := by decide
  rw [h2]
  rfl

/-- The probe after fewer than `2 ^ 31` insertions from `tlbindex = 0`, on the
`int` index, is the probe of the specification. -/
theorem search_tlb32_insertAll32 (t : TlbGlobals) (h : List (Nat × Int))
    (hlen : h.length < 2147483648) :
    ∃ t1, insertAll32 { t with tlbindex := 0 } h = some t1 ∧
      ∀ p, search_tlb32 t1 p = probeSpec h p := by
  have hidx : (insertAll { init with tlb := t.tlb } h).tlbindex = h.length := by
    rw [insertAll_tlbindex]
    show 0 + h.length = _
    omega
  refine ⟨_, insertAll32_eq h { init with tlb := t.tlb } ?_, ?_⟩
  · show 0 + h.length < 2147483648
    omega
  · intro p
    rw [search_tlb32_eq _ p (by rw [hidx]; exact hlen)]
    exact search_tlb_insertAll _ rfl h p

theorem probeSpec_after_insert (history : List (Nat × Int)) (p : Nat) (f : Int)
    (others : List (Nat × Int))
    (hmiss : probeSpec history p = -1) (hothers : ∀ e ∈ others, e.1 % 256 ≠ p % 256) :
    (others.length < 16 →
      probeSpec (history ++ (p, f) :: others) p = (((f % 256).toNat : Nat) : Int)) ∧
    (16 ≤ others.length → probeSpec (history ++ (p, f) :: others) p = -1) := by
  have hold := (probeSpec_miss_iff history p).1 hmiss
  constructor
  · intro hk
    apply probeSpec_found _ p (history.drop ((history ++ (p, f) :: others).length - 16)) others f
    · rw [List.drop_append_of_le_length]
      simp only [List.length_append, List.length_cons]
      omega
    · intro e he
      apply hold e
      have hle : history.length - 16 ≤ (history ++ (p, f) :: others).length - 16 := by
        simp only [List.length_append, List.length_cons]
        omega
      have hdd : history.drop ((history ++ (p, f) :: others).length - 16) =
          (history.drop (history.length - 16)).drop
            ((history ++ (p, f) :: others).length - 16 - (history.length - 16)) := by
        rw [List.drop_drop]
        congr 1
        omega
      rw [hdd] at he
      exact List.mem_of_mem_drop he
  · intro hk
    rw [probeSpec_miss_iff]
    intro e he
    apply hothers e
    have hH : history ++ (p, f) :: others = (history ++ [(p, f)]) ++ others := by simp
    rw [hH, List.drop_append_eq_append_drop] at he
    have hnil : (history ++ [(p, f)]).drop
        (((history ++ [(p, f)]) ++ others).length - 16) = [] := by
      apply List.drop_eq_nil_of_le
      simp only [List.length_append, List.length_singleton]
      omega
    rw [hnil, List.nil_append] at he
    exact List.mem_of_mem_drop he

theorem insertAll32_single (t : TlbGlobals) (e : Nat × Int) :
    insertAll32 t [e] = add_to_tlb32 t e.1 e.2 := by
  show (match add_to_tlb32 t e.1 e.2 with
    | none => none
    | some t1 => insertAll32 t1 []) = _
  cases add_to_tlb32 t e.1 e.2 <;> rfl

/-- The insertion that takes `tlbindex` from `INT_MAX` to `INT_MIN`: page 9
inserted `INT_MAX` times, then page 7. -/
theorem probe_after_wrap (n : Nat) (hn : n = 2147483647) :
    ∃ t1 ∈ insertAll32 tlbInit (List.replicate n (9, 1)),
      search_tlb32 t1 7 = -1 ∧
      ∃ t2 ∈ insertAll32 tlbInit (List.replicate n (9, 1) ++ [(7, 3)]),
        t2.tlbindex = -2147483648 ∧
        search_tlb32 t2 7 = -1 ∧
        probeSpec (List.replicate n (9, 1) ++ [(7, 3)]) 7 = 3 := by
  have hidx : (insertAll init (List.replicate n (9, 1))).tlbindex = n := by
    rw [insertAll_tlbindex, List.length_replicate]
    show 0 + n = n
    omega
  have h1 : insertAll32 tlbInit (List.replicate n (9, 1)) =
      some { tlb := (insertAll init (List.replicate n (9, 1))).tlb
             tlbindex := ((insertAll init (List.replicate n (9, 1))).tlbindex : Nat) } :=
    insertAll32_eq _ init (by
      rw [List.length_replicate]
      show 0 + n < 2147483648
      omega)
  obtain ⟨t2, h2, hmin, hnone⟩ := search_tlb32_after_wrap
    { tlb := (insertAll init (List.replicate n (9, 1))).tlb
      tlbindex := ((insertAll init (List.replicate n (9, 1))).tlbindex : Nat) }
    (by show (((insertAll init (List.replicate n (9, 1))).tlbindex : Nat) : Int) = _
        rw [hidx, hn]; rfl) 7 3
  refine ⟨_, h1, ?_, t2, ?_, hmin, hnone 7, ?_⟩
  · rw [search_tlb32_eq _ 7 (by rw [hidx]; omega), search_tlb_insertAll _ rfl,
      probeSpec_miss_iff]
    intro e he
    have := List.eq_of_mem_replicate (List.mem_of_mem_drop he)
    rw [this]
    decide
  · show insertAll32 tlbInit _ = some t2
    rw [insertAll32_append, h1, Option.some_bind, insertAll32_single]
    exact h2
  · apply probeSpec_found _ 7 (List.replicate 15 (9, 1)) [] 3
    · have hl : (List.replicate n ((9 : Nat), (1 : Int)) ++ [(7, 3)]).length - 16 ≤
          (List.replicate n ((9 : Nat), (1 : Int))).length := by
        simp only [List.length_append, List.length_replicate, List.length_singleton]
        omega
      rw [List.drop_append_of_le_length hl, List.drop_replicate]
      have h15 : n - ((List.replicate n ((9 : Nat), (1 : Int)) ++ [(7, 3)]).length - 16) = 15 := by
        simp only [List.length_append, List.length_replicate, List.length_singleton]
        omega
      rw [h15]
    · intro e he
      rw [List.eq_of_mem_replicate he]
      decide

/-! ## Claims -/

set_option maxRecDepth 100000

/-- C2 (a stale TLB hit exists): under the FIFO policy, with the backing store
`pageBytes` and the trace of one address in each of the pages 0..63, then
page 0, then page 64, the next address 5 of page 0 is a TLB hit (`tlb_hits`
incremented, `page_faults` unchanged, `search_tlb` finds the page) although
the page-table entry of page 0 is invalid; the frame it returns is owned in
the page table by another logical page, and the byte read from `main_memory`
differs from the backing-store byte at the logical address. -/
theorem stale_tlb_hit :
    ∃ (bk : Nat → Int) (trace : List Int) (a : Int),
      ∃ s ∈ run 0 bk init trace, ∃ x ∈ translate 0 bk s a,
        search_tlb s (pageOf a) ≠ -1 ∧
        x.1.tlb_hits = s.tlb_hits + 1 ∧ x.1.page_faults = s.page_faults ∧
        s.pagetable (pageOf a) 1 = 0 ∧
        (∃ q, q < 256 ∧ (q ≠ pageOf a ∧ s.pagetable q 1 = 1 ∧
          s.pagetable q 0 = x.2.physical_page)) ∧
        x.2.value = s.main_memory (x.2.physical_page * 256 + offsetOf a) ∧
        x.2.value ≠ bk a.toNat :=
  ⟨pageBytes, staleTrace, 5, by decide⟩

/-- C4 (recency order): under the recency policy (mode 1), after a trace that
references 64 pairwise distinct pages `p0, p1, ...` once each, then `p0`
again, the rear of the queue is `p1`, and the next reference to a page
distinct from all of them evicts `p1` and not `p0`: afterwards the entry of
`p1` is invalid, that of `p0` still valid, and the new page holds the frame
`p1` had. -/
theorem recency_order (bk : Nat → Int) (trace : List Int) (ar a64 : Int) (p0 p1 : Nat)
    (rest : List Nat) (hpages : pagesOf trace = p0 :: p1 :: rest)
    (hnd : (pagesOf trace).Nodup) (hlen : trace.length = 64) (hre : pageOf ar = p0)
    (hnew : pageOf a64 ∉ pagesOf trace) :
    ∃ s s1, run 1 bk init (trace ++ [ar]) = some s ∧ step 1 bk s a64 = some s1 ∧
      s.pagetable p1 1 = 1 ∧ s.pagetable p0 1 = 1 ∧ (dequeue s.queue).1 = some p1 ∧
      s1.pagetable p1 1 = 0 ∧ s1.pagetable p0 1 = 1 ∧
      s1.pagetable (pageOf a64) 1 = 1 ∧
      s1.pagetable (pageOf a64) 0 = s.pagetable p1 0 := by
  obtain ⟨s0, hr0, hw0, hkeys0⟩ := distinct_keys 1 bk trace hnd (by omega)
  have hplen : (pagesOf trace).length = 64 := by simp [pagesOf, hlen]
  have hp0 : p0 ∈ pagesOf trace := by rw [hpages]; simp
  have hcard : (pagesOf trace ++ [pageOf ar]).toFinset.card ≤ 64 := by
    have : (pagesOf trace ++ [pageOf ar]).toFinset = (pagesOf trace).toFinset := by
      ext p
      simp only [List.mem_toFinset, List.mem_append, List.mem_singleton, hre]
      constructor
      · rintro (h | h)
        · exact h
        · rw [h]; exact hp0
      · intro h; exact Or.inl h
    rw [this]
    exact le_trans (List.toFinset_card_le _) (by omega)
  obtain ⟨s, r, ht, hw, -, -, -, hk1, -⟩ := hw0.translate_ok 1 ar hcard
  have hnd' : (p0 :: p1 :: rest).Nodup := hpages ▸ hnd
  have hp0r : p0 ∉ p1 :: rest := (List.nodup_cons.1 hnd').1
  have hp01 : p0 ≠ p1 := fun h => hp0r (by rw [h]; simp)
  have hkeys : s.queue.keys = (p0 :: rest.reverse) ++ [p1] := by
    rw [hk1 rfl, hkeys0, hpages, hre]
    have h1 : (p0 :: p1 :: rest).reverse = (rest.reverse ++ [p1]) ++ [p0] := by simp
    have h2 : p0 ∉ rest.reverse ++ [p1] := by
      intro hc
      apply hp0r
      rcases List.mem_append.1 hc with h | h
      · exact List.mem_cons_of_mem _ (List.mem_reverse.1 h)
      · rw [List.mem_singleton.1 h]; simp
    rw [h1, List.erase_append_right _ h2]
    simp
  have hlen64 : s.queue.keys.length = 64 := by
    rw [hkeys]
    have : (p0 :: p1 :: rest).length = 64 := by rw [← hpages]; exact hplen
    simp at this ⊢
    omega
  have hnew' : pageOf a64 ∉ pagesOf trace ++ [pageOf ar] := by
    intro hc
    rcases List.mem_append.1 hc with h | h
    · exact hnew h
    · rw [List.mem_singleton.1 h, hre] at hnew
      exact hnew hp0
  obtain ⟨hm, hv⟩ := hw.fresh (pageOf a64) (pageOf_lt a64) hnew'
  obtain ⟨s1, hs, -, hpt, -⟩ := hw.inv.step_evict 1 a64 (p0 :: rest.reverse) p1 hm hv hkeys hlen64
  have hp1k : p1 ∈ s.queue.keys := by rw [hkeys]; simp
  have hp0k : p0 ∈ s.queue.keys := by rw [hkeys]; simp
  have hp1 : p1 ∈ pagesOf trace := by rw [hpages]; simp
  have hne1 : p1 ≠ pageOf a64 := fun h => hnew (h ▸ hp1)
  have hne0 : p0 ≠ pageOf a64 := fun h => hnew (h ▸ hp0)
  have hv0 : s.pagetable p0 1 = 1 := (hw.inv.valid_iff p0).2 hp0k
  refine ⟨s, s1, by rw [run_snoc, hr0]; exact step_of_translate ht, hs,
    (hw.inv.valid_iff p1).2 hp1k, hv0, ?_, ?_, ?_, ?_, ?_⟩
  · rw [dequeue_concat s.queue _ p1 hkeys]
  · rw [hpt]; simp [setPT_apply, hne1]
  · rw [hpt]; simp [setPT_apply, hne0, hp01, hv0]
  · rw [hpt]; simp [setPT_apply]
  · rw [hpt]; simp [setPT_apply]

/-- Witness of `recency_order`: the pages 0..63 in order, then page 0 again,
then page 64. -/
theorem recency_order_witness :
    ∃ s s1, run 1 (fun _ => 0) init (fillTrace ++ [5]) = some s ∧
      step 1 (fun _ => 0) s 16384 = some s1 ∧
      s.pagetable 1 1 = 1 ∧ s.pagetable 0 1 = 1 ∧ (dequeue s.queue).1 = some 1 ∧
      s1.pagetable 1 1 = 0 ∧ s1.pagetable 0 1 = 1 ∧
      s1.pagetable (pageOf 16384) 1 = 1 ∧
      s1.pagetable (pageOf 16384) 0 = s.pagetable 1 0 :=
  recency_order (fun _ => 0) fillTrace 5 16384 0 1 ((List.range 62).map (fun p => p + 2))
    (by decide) (by decide) (by decide) (by decide) (by decide)

/-- C5 (fault accounting): for either policy, a trace of `N ≤ 64` addresses in
pairwise distinct pages, processed from the initial state, evicts nothing and
faults once per address: after each prefix of `k` addresses the loop has
returned with `page_faults = k` and exactly the pages of the prefix valid (so
no entry is ever invalidated), and before each further address the queue is
not full, so `getFreeFrame` takes its first branch and never calls `dequeue`.
At `k = N` this is the final state: `page_faults = N`, exactly the `N` pages
valid. -/
theorem fault_accounting (mode : Int) (bk : Nat → Int) (trace : List Int)
    (hd : (pagesOf trace).Nodup) (hlen : trace.length ≤ 64) :
    ∀ k, k ≤ trace.length →
      ∃ s, run mode bk init (trace.take k) = some s ∧
        s.page_faults = k ∧
        (∀ p, s.pagetable p 1 = 1 ↔ p ∈ pagesOf (trace.take k)) ∧
        (∀ p, s.pagetable p 1 = 0 ∨ s.pagetable p 1 = 1) ∧
        (k < trace.length → isFull s.queue = false) := by
  intro k hk
  have hpages : pagesOf (trace.take k) = (pagesOf trace).take k := by
    simp [pagesOf, List.map_take]
  have hnd : (pagesOf (trace.take k)).Nodup := by
    rw [hpages]
    exact hd.sublist (List.take_sublist _ _)
  have hplen : (pagesOf (trace.take k)).length = k := by
    simp [pagesOf, List.length_take, hk]
  have hcard : (pagesOf (trace.take k)).toFinset.card = k := by
    rw [List.toFinset_card_of_nodup hnd, hplen]
  obtain ⟨s, hr, hw⟩ := Warm.run_warm bk mode (trace.take k) (by omega)
  have hkl : s.queue.keys.length = k := by
    rw [length_eq_card_of_mem_iff _ _ hw.inv.nodup hw.keys_iff, hcard]
  refine ⟨s, hr, ?_, ?_, hw.inv.valid_bit, ?_⟩
  · rw [hw.faults, hkl]
  · intro p
    exact (hw.inv.valid_iff p).trans (hw.keys_iff p)
  · intro hlt
    rw [isFull_false_iff]
    exact hw.inv.size_ne_cap (by omega)

/-- Witness of `fault_accounting`: three addresses in the pages 0, 1 and 2
under the FIFO policy; all three prefixes are covered, here the whole trace. -/
theorem fault_accounting_witness :
    ∃ s, run 0 (fun _ => 0) init ([0, 256, 512].take 3) = some s ∧
      s.page_faults = 3 ∧
      (∀ p, s.pagetable p 1 = 1 ↔ p ∈ pagesOf ([0, 256, 512].take 3)) ∧
      (∀ p, s.pagetable p 1 = 0 ∨ s.pagetable p 1 = 1) ∧
      (3 < ([0, 256, 512] : List Int).length → isFull s.queue = false) :=
  fault_accounting 0 (fun _ => 0) [0, 256, 512] (by decide) (by decide) 3 (by decide)

/-- C6 (hit-rate scenario): for either policy and any four addresses whose
pages are `[p0, p0, p1, p0]` with `p0 ≠ p1` (any offsets), the loop from the
initial state returns with `total_addresses = 4`, `page_faults = 2` and
`tlb_hits ≥ 1`; the second reference to `p0` is a TLB hit, the only one so
far (`tlb_hits = 1` after two addresses). -/
theorem hit_rate_scenario (mode : Int) (bk : Nat → Int) (a0 a1 a2 a3 : Int)
    (h1 : pageOf a1 = pageOf a0) (h2 : pageOf a2 ≠ pageOf a0) (h3 : pageOf a3 = pageOf a0) :
    ∃ s2 s, run mode bk init [a0, a1] = some s2 ∧ s2.tlb_hits = 1 ∧
      run mode bk init [a0, a1, a2, a3] = some s ∧
      s.total_addresses = 4 ∧ s.page_faults = 2 ∧ 1 ≤ s.tlb_hits := by
  have hc : ∀ l : List Nat, l.length ≤ 4 → l.toFinset.card ≤ 64 := fun l hl =>
    le_trans (List.toFinset_card_le l) (by omega)
  obtain ⟨s1, r1, ht1, hw1, htot1, hhit1, -, -, hs1, -⟩ :=
    (Warm_init bk).translate_ok mode a0 (hc _ (by simp))
  obtain ⟨s2, r2, ht2, hw2, htot2, hhit2, -, -, hs2, -⟩ :=
    hw1.translate_ok mode a1 (hc _ (by simp))
  obtain ⟨s3, r3, ht3, hw3, htot3, hhit3, -, -, hs3, -⟩ :=
    hw2.translate_ok mode a2 (hc _ (by simp))
  obtain ⟨s4, r4, ht4, hw4, htot4, hhit4, -, -, hs4, -⟩ :=
    hw3.translate_ok mode a3 (hc _ (by simp))
  rw [search_tlb_init, if_pos rfl] at hhit1
  rw [h1, if_neg hs1] at hhit2
  have hh1 : s1.tlb_hits = 0 := hhit1
  have hh2 : s2.tlb_hits = 1 := by rw [hhit2, hh1]
  have hh3 : s2.tlb_hits ≤ s3.tlb_hits := by rw [hhit3]; split_ifs <;> omega
  have hh4 : s3.tlb_hits ≤ s4.tlb_hits := by rw [hhit4]; split_ifs <;> omega
  have hfaults : s4.page_faults = 2 := by
    rw [hw4.faults, length_eq_card_of_mem_iff _ _ hw4.inv.nodup hw4.keys_iff, h1, h3]
    have hne : pageOf a0 ≠ pageOf a2 := fun h => h2 h.symm
    simp only [List.nil_append, List.cons_append, List.toFinset_cons, List.toFinset_nil,
      insert_emptyc_eq, Finset.insert_idem, Finset.mem_insert, Finset.mem_singleton, true_or,
      Finset.insert_eq_of_mem]
    rw [Finset.pair_comm, Finset.insert_eq_of_mem (by simp)]
    exact Finset.card_pair hne
  have hrun2 : run mode bk init [a0, a1] = some s2 := by
    rw [run_cons, step_of_translate ht1, Option.some_bind, run_cons, step_of_translate ht2]
    rfl
  have hrun4 : run mode bk init [a0, a1, a2, a3] = some s4 := by
    rw [run_cons, step_of_translate ht1, Option.some_bind, run_cons, step_of_translate ht2,
      Option.some_bind, run_cons, step_of_translate ht3, Option.some_bind, run_cons,
      step_of_translate ht4]
    rfl
  refine ⟨s2, s4, hrun2, hh2, hrun4, ?_, hfaults, by omega⟩
  rw [htot4, htot3, htot2, htot1]
  rfl

/-- Witness of `hit_rate_scenario`: pages `[3, 3, 7, 3]` with different
offsets under the recency policy. -/
theorem hit_rate_scenario_witness :
    ∃ s2 s, run 1 (fun i => (i : Int) % 100) init [768, 770] = some s2 ∧ s2.tlb_hits = 1 ∧
      run 1 (fun i => (i : Int) % 100) init [768, 770, 1800, 1000] = some s ∧
      s.total_addresses = 4 ∧ s.page_faults = 2 ∧ 1 ≤ s.tlb_hits :=
  hit_rate_scenario 1 (fun i => (i : Int) % 100) 768 770 1800 1000 (by decide) (by decide)
    (by decide)

/-- C7 (decode round-trip): for every logical address `a` with
`0 ≤ a < 65536`, the page `(a >> OFFSET_BITS) & PAGE_MASK` and the offset
`a & OFFSET_MASK` computed by `main` recombine to `a`,
`(logical_page << OFFSET_BITS) | offset = a`, and both lie in `[0, 256)`. -/
theorem decode_round_trip (a : Int) (h0 : 0 ≤ a) (h1 : a < 65536) :
    Int.lor ((pageOf a : Int) <<< (OFFSET_BITS : Int)) (offsetOf a) = a ∧
      pageOf a < 256 ∧ 0 ≤ offsetOf a ∧ offsetOf a < 256 := by
  refine ⟨?_, pageOf_lt a, offsetOf_bounds a⟩
  obtain ⟨n, rfl⟩ := Int.eq_ofNat_of_zero_le h0
  have hn : n < 65536 := by omega
  rw [pageOf_natCast, offsetOf_natCast, lor_shiftLeft_natCast _ _ (Nat.mod_lt _ (by norm_num))]
  congr 1
  omega

/-- Witness of `decode_round_trip` at the address 12345 (page 48, offset 57). -/
theorem decode_round_trip_witness :
    Int.lor ((pageOf 12345 : Int) <<< (OFFSET_BITS : Int)) (offsetOf 12345) = 12345 ∧
      pageOf 12345 < 256 ∧ 0 ≤ offsetOf 12345 ∧ offsetOf 12345 < 256 :=
  decode_round_trip 12345 (by decide) (by decide)

/-- Counterexample to C11 as stated (any trace), at two inputs. After the
empty trace `total_addresses` is 0 and neither rate is a number in `[0, 1]`:
the quotient `page_faults / total_addresses` has no value. After `2 ^ 31`
addresses, here all of them the address 0 under the FIFO policy, the `int`
`total_addresses` has wrapped to `INT_MIN` while `page_faults = 1` and
`tlb_hits = 2 ^ 31 - 1`: `page_faults` plus the misses resolved without a
fault exceeds `total_addresses`, and both rates are negative. -/
theorem rates_outside_unit_interval :
    (∃ s ∈ run 0 (fun _ => 0) init [],
      int32 s.total_addresses = 0 ∧
      (¬ ∃ r : ℚ, rate (int32 s.page_faults) (int32 s.total_addresses) = some r ∧
        0 ≤ r ∧ r ≤ 1) ∧
      ¬ ∃ r : ℚ, rate (int32 s.tlb_hits) (int32 s.total_addresses) = some r ∧
        0 ≤ r ∧ r ≤ 1) ∧
    ∃ s ∈ run 0 (fun _ => 0) init (List.replicate 2147483648 0),
      int32 s.total_addresses = -2147483648 ∧
      ¬ (int32 s.page_faults +
          residentMisses 0 (fun _ => 0) init (List.replicate 2147483648 0) ≤
        int32 s.total_addresses) ∧
      (¬ ∃ r : ℚ, rate (int32 s.page_faults) (int32 s.total_addresses) = some r ∧
        0 ≤ r ∧ r ≤ 1) ∧
      ¬ ∃ r : ℚ, rate (int32 s.tlb_hits) (int32 s.total_addresses) = some r ∧
        0 ≤ r ∧ r ≤ 1 := by
  refine ⟨⟨init, rfl, by decide, ?_, ?_⟩, rates_after_wrap 2147483648 rfl⟩
  · rintro ⟨r, hr, -⟩
    have h0 : int32 (init.total_addresses : Nat) = 0 := by decide
    rw [h0] at hr
    exact Option.noConfusion hr
  · rintro ⟨r, hr, -⟩
    have h0 : int32 (init.total_addresses : Nat) = 0 := by decide
    rw [h0] at hr
    exact Option.noConfusion hr

/-- C11, amended (statistics sanity): for either policy, after processing any
trace of fewer than `2 ^ 31` addresses from the initial state the loop has
returned, the `int` counter `total_addresses` holds the length of the trace,
and each address has incremented exactly one of `tlb_hits`, `page_faults` and
the count of TLB misses resolved from the page table without a fault, so
`page_faults` plus that count never exceeds `total_addresses`; and if the
trace is moreover not empty, both rates, taken as the exact quotients
`page_faults / total_addresses` and `tlb_hits / total_addresses` of the `int`
counters, lie in `[0, 1]`. -/
theorem statistics_sanity (mode : Int) (bk : Nat → Int) (trace : List Int)
    (hlen : trace.length < 2147483648) :
    ∃ s, run mode bk init trace = some s ∧
      int32 s.total_addresses = trace.length ∧
      int32 s.tlb_hits + int32 s.page_faults + residentMisses mode bk init trace =
        int32 s.total_addresses ∧
      int32 s.page_faults + residentMisses mode bk init trace ≤ int32 s.total_addresses ∧
      (trace ≠ [] →
        (∃ r : ℚ, rate (int32 s.page_faults) (int32 s.total_addresses) = some r ∧
          0 ≤ r ∧ r ≤ 1) ∧
        ∃ r : ℚ, rate (int32 s.tlb_hits) (int32 s.total_addresses) = some r ∧
          0 ≤ r ∧ r ≤ 1) := by
  obtain ⟨s, hr, -, htot, hcount⟩ := Inv.count_run bk mode trace init (Inv_init bk)
  have htot' : s.total_addresses = trace.length := by
    rw [htot]
    show 0 + trace.length = _
    omega
  have hcount' : s.tlb_hits + s.page_faults + residentMisses mode bk init trace =
      trace.length := by
    rw [hcount]
    show 0 + 0 + trace.length = _
    omega
  clear htot hcount
  have e1 : int32 s.total_addresses = s.total_addresses := int32_of_lt _ (by omega) (by omega)
  have e2 : int32 s.tlb_hits = s.tlb_hits := int32_of_lt _ (by omega) (by omega)
  have e3 : int32 s.page_faults = s.page_faults := int32_of_lt _ (by omega) (by omega)
  refine ⟨s, hr, ?_⟩
  rw [e1, e2, e3]
  refine ⟨by omega, by omega, by omega, ?_⟩
  intro hne
  have hpos : 0 < trace.length := List.length_pos.2 hne
  exact ⟨rate_bounds _ _ (by omega) (by omega) (by omega),
    rate_bounds _ _ (by omega) (by omega) (by omega)⟩

/-- Witness of `statistics_sanity`: the trace of the pages `[0, 1, 0]` under
the recency policy. -/
theorem statistics_sanity_witness :
    ∃ s, run 1 pageBytes init [0, 256, 7] = some s ∧
      int32 s.total_addresses = ([0, 256, 7] : List Int).length ∧
      int32 s.tlb_hits + int32 s.page_faults + residentMisses 1 pageBytes init [0, 256, 7] =
        int32 s.total_addresses ∧
      int32 s.page_faults + residentMisses 1 pageBytes init [0, 256, 7] ≤
        int32 s.total_addresses ∧
      (([0, 256, 7] : List Int) ≠ [] →
        (∃ r : ℚ, rate (int32 s.page_faults) (int32 s.total_addresses) = some r ∧
          0 ≤ r ∧ r ≤ 1) ∧
        ∃ r : ℚ, rate (int32 s.tlb_hits) (int32 s.total_addresses) = some r ∧
          0 ≤ r ∧ r ≤ 1) :=
  statistics_sanity 1 pageBytes [0, 256, 7] (by decide)

/-- Counterexample to C12 as stated (every sequence of insertions): from the
zeroed TLB with `tlbindex = 0`, insert page 9 `2 ^ 31 - 1` times, so that page
7 is a miss, and then insert page 7 with frame 3. The last increment takes
the `int` `tlbindex` from `INT_MAX` to `INT_MIN`, after which the loop of
`search_tlb` runs over nothing: the probe of page 7 returns `-1` with no
further insertion at all, where the newest of the last 16 insertions is
page 7 with frame 3. -/
theorem tlb_probe_fails_after_index_wrap :
    ∃ t1 ∈ insertAll32 tlbInit (List.replicate 2147483647 (9, 1)),
      search_tlb32 t1 7 = -1 ∧
      ∃ t2 ∈ insertAll32 tlbInit (List.replicate 2147483647 (9, 1) ++ [(7, 3)]),
        t2.tlbindex = -2147483648 ∧
        search_tlb32 t2 7 = -1 ∧
        probeSpec (List.replicate 2147483647 (9, 1) ++ [(7, 3)]) 7 = 3 :=
  probe_after_wrap 2147483647 rfl

/-- C12, amended (TLB probe and insert are strict FIFO over the insertion
history, as long as the `int` `tlbindex` has not wrapped): for every sequence
of fewer than `2 ^ 31` `add_to_tlb` calls starting from `tlbindex = 0` and
every page `p`, the calls return and `search_tlb` returns what the
specification's probe returns: the frame of the oldest entry among the last
`min tlbindex 16` insertions whose logical page is `p`, and `-1` exactly when
none of them matches. Hence, when `p` was a miss and is inserted with frame
`f`, then after `k < 16` further insertions of other pages the probe of `p`
returns `f` (as stored, an `unsigned char`), and after 16 or more it is a
miss, the whole sequence being shorter than `2 ^ 31`; a probe changes no
state, so probes in between make no difference. -/
theorem tlb_probe_insert_fifo (t : TlbGlobals) (history : List (Nat × Int)) (p : Nat)
    (hlen : history.length < 2147483648) :
    ∃ t1, insertAll32 { t with tlbindex := 0 } history = some t1 ∧
      search_tlb32 t1 p = probeSpec history p ∧
      (probeSpec history p = -1 ↔
        ∀ e ∈ history.drop (history.length - TLB_SIZE), e.1 % 256 ≠ p % 256) ∧
      ∀ (f : Int) (others : List (Nat × Int)),
        search_tlb32 t1 p = -1 →
        (∀ e ∈ others, e.1 % 256 ≠ p % 256) →
        (history ++ (p, f) :: others).length < 2147483648 →
        ∃ t2, insertAll32 { t with tlbindex := 0 } (history ++ (p, f) :: others) = some t2 ∧
          (others.length < TLB_SIZE →
            search_tlb32 t2 p = (((f % 256).toNat : Nat) : Int)) ∧
          (TLB_SIZE ≤ others.length → search_tlb32 t2 p = -1) := by
  obtain ⟨t1, hins, hprobe⟩ := search_tlb32_insertAll32 t history hlen
  refine ⟨t1, hins, hprobe p, probeSpec_miss_iff history p, ?_⟩
  intro f others hmiss hothers hlen2
  rw [hprobe p] at hmiss
  obtain ⟨t2, hins2, hprobe2⟩ := search_tlb32_insertAll32 t (history ++ (p, f) :: others) hlen2
  refine ⟨t2, hins2, ?_⟩
  rw [hprobe2 p]
  exact probeSpec_after_insert history p f others hmiss hothers

/-- Witness of `tlb_probe_insert_fifo`: after the insertions `(1, 5)`,
`(2, 6)`, `(1, 8)` into the zeroed TLB the probe of page 1 returns the older
frame 5, page 3 is a miss, and page 3 inserted with frame 9 and followed by
one other insertion is found. -/
theorem tlb_probe_insert_fifo_witness :
    ∃ t1, insertAll32 { tlbInit with tlbindex := 0 } [(1, 5), (2, 6), (1, 8)] = some t1 ∧
      search_tlb32 t1 3 = probeSpec [(1, 5), (2, 6), (1, 8)] 3 ∧
      (probeSpec [(1, 5), (2, 6), (1, 8)] 3 = -1 ↔
        ∀ e ∈ [((1 : Nat), (5 : Int)), (2, 6), (1, 8)].drop
          ([((1 : Nat), (5 : Int)), (2, 6), (1, 8)].length - TLB_SIZE), e.1 % 256 ≠ 3 % 256) ∧
      ∀ (f : Int) (others : List (Nat × Int)),
        search_tlb32 t1 3 = -1 →
        (∀ e ∈ others, e.1 % 256 ≠ 3 % 256) →
        ([(1, 5), (2, 6), (1, 8)] ++ (3, f) :: others).length < 2147483648 →
        ∃ t2, insertAll32 { tlbInit with tlbindex := 0 }
            ([(1, 5), (2, 6), (1, 8)] ++ (3, f) :: others) = some t2 ∧
          (others.length < TLB_SIZE →
            search_tlb32 t2 3 = (((f % 256).toNat : Nat) : Int)) ∧
          (TLB_SIZE ≤ others.length → search_tlb32 t2 3 = -1) :=
  tlb_probe_insert_fifo tlbInit [(1, 5), (2, 6), (1, 8)] 3 (by decide)

/-- C13 (steady-state eviction step): when `getFreeFrame` is called with a
full queue of distinct keys whose rear key is `r`, and a `logical_page` not
in the queue, it returns; the victim `dequeue` yields is `r`; afterwards `r`
is no longer in the queue and `logical_page` is at the front with the other
keys in their previous order; `pagetable[r]` is `(-1, 0)`,
`pagetable[logical_page]` is `(the former frame of r, 1)`; the return value is
that frame as `unsigned char`, hence the frame itself when it lies in
`[0, 256)`; `next_frame`, the TLB, the memory and every other page-table entry
are unchanged. -/
theorem steady_state_eviction (s : State) (mode : Int) (lp : Nat) (l : List Nat) (r : Nat)
    (hfull : isFull s.queue = true) (hk : s.queue.keys = l ++ [r])
    (hnd : s.queue.keys.Nodup) (hin : lp ∉ s.queue.keys) :
    ∃ frame s1, getFreeFrame s mode lp = some (frame, s1) ∧
      (dequeue s.queue).1 = some r ∧
      r ∉ s1.queue.keys ∧ s1.queue.keys = lp :: l ∧
      s1.queue.size = s.queue.size ∧ s1.queue.capacity = s.queue.capacity ∧
      s1.pagetable r 0 = -1 ∧ s1.pagetable r 1 = 0 ∧
      s1.pagetable lp 0 = s.pagetable r 0 ∧ s1.pagetable lp 1 = 1 ∧
      frame = (s.pagetable r 0 % 256).toNat ∧
      (0 ≤ s.pagetable r 0 → s.pagetable r 0 < 256 → (frame : Int) = s.pagetable r 0) ∧
      s1.next_frame = s.next_frame ∧
      (∀ p, p ≠ r → p ≠ lp → ∀ c, s1.pagetable p c = s.pagetable p c) ∧
      s1.tlb = s.tlb ∧ s1.tlbindex = s.tlbindex ∧ s1.main_memory = s.main_memory := by
  have hsz := (isFull_iff s.queue).1 hfull
  have hnd' : (l ++ [r]).Nodup := hk ▸ hnd
  have hrl : r ∉ l := fun hm => (List.nodup_append.1 hnd').2.2 hm (by simp)
  have hrk : r ∈ s.queue.keys := by rw [hk]; simp
  have hne : r ≠ lp := fun h => hin (h ▸ hrk)
  have hlpl : lp ∉ l := fun hm => hin (by rw [hk]; exact List.mem_append_left _ hm)
  have hgf : getFreeFrame s mode lp = some ((s.pagetable r 0 % 256).toNat,
      { s with
        queue := { s.queue with keys := lp :: l, size := s.queue.size }
        pagetable :=
          setPT (setPT (setPT (setPT s.pagetable r 0 (-1)) r 1 0) lp 0 (s.pagetable r 0))
            lp 1 1 }) := by
    unfold getFreeFrame
    simp only [hfull, Bool.not_true, Bool.false_eq_true, if_false,
      (isIncluded_false_iff s.queue lp).2 hin, Bool.not_false, if_true]
    rw [dequeue_concat s.queue l r hk]
    simp only
    rw [enqueue_of_not_full _ _ (by simp only; omega)]
    simp only [sub_add_cancel]
  refine ⟨_, _, hgf, ?_, ?_, rfl, rfl, rfl, ?_, ?_, ?_, ?_, rfl, ?_, rfl, ?_, rfl, rfl, rfl⟩
  · rw [dequeue_concat s.queue l r hk]
  · show r ∉ lp :: l
    simp [hne, hrl]
  · show setPT (setPT (setPT (setPT s.pagetable r 0 (-1)) r 1 0) lp 0 (s.pagetable r 0))
      lp 1 1 r 0 = -1
    simp [setPT_apply, hne]
  · show setPT (setPT (setPT (setPT s.pagetable r 0 (-1)) r 1 0) lp 0 (s.pagetable r 0))
      lp 1 1 r 1 = 0
    simp [setPT_apply, hne]
  · show setPT (setPT (setPT (setPT s.pagetable r 0 (-1)) r 1 0) lp 0 (s.pagetable r 0))
      lp 1 1 lp 0 = _
    simp [setPT_apply]
  · show setPT (setPT (setPT (setPT s.pagetable r 0 (-1)) r 1 0) lp 0 (s.pagetable r 0))
      lp 1 1 lp 1 = 1
    simp [setPT_apply]
  · intro h0 h1
    rw [Int.emod_eq_of_lt h0 h1]
    exact Int.toNat_of_nonneg h0
  · intro p hp1 hp2 c
    show setPT (setPT (setPT (setPT s.pagetable r 0 (-1)) r 1 0) lp 0 (s.pagetable r 0))
      lp 1 1 p c = _
    simp [setPT_apply, hp1, hp2]

/-- Witness of `steady_state_eviction`: the full queue of `fullState` (the
pages 63, ..., 0 from front to rear) and page 64. -/
theorem steady_state_eviction_witness :
    ∃ frame s1, getFreeFrame fullState 0 64 = some (frame, s1) ∧
      (dequeue fullState.queue).1 = some 0 ∧
      0 ∉ s1.queue.keys ∧ s1.queue.keys = 64 :: (List.range 63).map (fun i => 63 - i) ∧
      s1.queue.size = fullState.queue.size ∧ s1.queue.capacity = fullState.queue.capacity ∧
      s1.pagetable 0 0 = -1 ∧ s1.pagetable 0 1 = 0 ∧
      s1.pagetable 64 0 = fullState.pagetable 0 0 ∧ s1.pagetable 64 1 = 1 ∧
      frame = (fullState.pagetable 0 0 % 256).toNat ∧
      (0 ≤ fullState.pagetable 0 0 → fullState.pagetable 0 0 < 256 →
        (frame : Int) = fullState.pagetable 0 0) ∧
      s1.next_frame = fullState.next_frame ∧
      (∀ p, p ≠ 0 → p ≠ 64 → ∀ c, s1.pagetable p c = fullState.pagetable p c) ∧
      s1.tlb = fullState.tlb ∧ s1.tlbindex = fullState.tlbindex ∧
      s1.main_memory = fullState.main_memory :=
  steady_state_eviction fullState 0 64 ((List.range 63).map (fun i => 63 - i)) 0
    (by decide) (by decide) (by decide) (by decide)

/-- C14 (reference update is move-to-front): for every well-formed queue with
pairwise distinct keys and `size ≤ capacity`, and every page `p`,
`referencePage` returns; it leaves the queue unchanged if `p` is not in it or
is already at the front; otherwise the resulting front-to-rear key sequence is
`p` followed by all other keys in their previous relative order, with `size`
and `capacity` unchanged, the keys still pairwise distinct and `size` still
the number of nodes. -/
theorem reference_move_to_front (q : Queue) (p : Nat) (hnd : q.keys.Nodup)
    (hwf : q.size = q.keys.length) (hsz : q.size ≤ q.capacity) :
    ((p ∉ q.keys ∨ q.keys.head? = some p) → referencePage q p = some q) ∧
      (p ∈ q.keys → q.keys.head? ≠ some p →
        ∃ q1, referencePage q p = some q1 ∧
          q1.keys = p :: q.keys.filter (fun k => k != p) ∧
          q1.size = q.size ∧ q1.capacity = q.capacity ∧
          q1.keys.Nodup ∧ q1.size = q1.keys.length) := by
  have heq := referencePage_eq q p hnd hsz
  constructor
  · rintro (h | h)
    · rw [heq, if_neg h]
    · obtain ⟨size, capacity, keys⟩ := q
      cases keys with
      | nil => simp at h
      | cons k rest =>
        simp only [List.head?_cons, Option.some.injEq] at h
        subst h
        rw [heq]
        simp
  · intro hin _
    rw [if_pos hin] at heq
    have hperm : (p :: q.keys.erase p).Perm q.keys := (List.perm_cons_erase hin).symm
    refine ⟨_, heq, ?_, rfl, rfl, ?_, ?_⟩
    · show p :: q.keys.erase p = _
      rw [hnd.erase_eq_filter p]
    · exact hperm.nodup_iff.2 hnd
    · show q.size = (p :: q.keys.erase p).length
      rw [hperm.length_eq, hwf]

/-- Witness of `reference_move_to_front`: a reference to an interior key. -/
theorem reference_move_to_front_witness :
    ((2 ∉ ({ size := 3, capacity := 64, keys := [1, 2, 3] } : Queue).keys ∨
        ({ size := 3, capacity := 64, keys := [1, 2, 3] } : Queue).keys.head? = some 2) →
      referencePage { size := 3, capacity := 64, keys := [1, 2, 3] } 2 =
        some { size := 3, capacity := 64, keys := [1, 2, 3] }) ∧
      (2 ∈ ({ size := 3, capacity := 64, keys := [1, 2, 3] } : Queue).keys →
        ({ size := 3, capacity := 64, keys := [1, 2, 3] } : Queue).keys.head? ≠ some 2 →
        ∃ q1, referencePage { size := 3, capacity := 64, keys := [1, 2, 3] } 2 = some q1 ∧
          q1.keys = 2 :: ([1, 2, 3] : List Nat).filter (fun k => k != 2) ∧
          q1.size = 3 ∧ q1.capacity = 64 ∧ q1.keys.Nodup ∧ q1.size = q1.keys.length) :=
  reference_move_to_front { size := 3, capacity := 64, keys := [1, 2, 3] } 2 (by decide)
    (by decide) (by decide)

end Virtmem
